import Mathlib

/-!
# Verification of the `tagged` storage core

A shallow embedding of the storage core of the `tagged` repository
(`src/storage/block.rs`, `src/storage/storage.rs`) together with proofs of
the behavioural claims made by its specification.

Modelling conventions:
* Rust `u64` / `usize` values are modelled as `Nat`; the machine-width
  invariants (`< 2 ^ 64`, …) appear as explicit hypotheses where they matter.
* A Rust `String` is modelled by its byte sequence (`List Nat`); Rust's
  `Ord` on strings is byte-wise lexicographic, which the model mirrors.
* A seekable byte stream (`Cursor<Vec<u8>>` / `File`) is modelled by
  `MStream`: a byte list plus a position, with sparse-extension on writes
  past the end.
* `rmp_serde` (MessagePack) is modelled concretely at the byte level for the
  types the codec serialises: unsigned integers, byte strings, sequences and
  the `BlockHeader` struct (serialised as a fix-array of its 8 fields).
* Fallible Rust code returns `Except String`; a Rust `panic!` / failed
  `unwrap` is modelled by the `panicked` constructor of `RRes` (or `ROut`
  where a recoverable `Err` must be distinguished from a panic).
-/

namespace Tagged

/-! ## Byte-level MessagePack model (the `rmp_serde` encoding) -/

/-- A Rust `String` (or `&[u8]`) as its byte sequence. -/
abbrev RStr := List Nat

/-- Big-endian byte list of `v` in `k` bytes (the low `8·k` bits of `v`). -/
def beBytes : Nat → Nat → List Nat
  | 0, _ => []
  | k + 1, v => beBytes k (v / 256) ++ [v % 256]

/-- Value of a big-endian byte list. -/
def beVal : List Nat → Nat
  | [] => 0
  | b :: rest => b * 256 ^ rest.length + beVal rest

theorem beBytes_length (k v : Nat) : (beBytes k v).length = k := by
  induction k generalizing v with
  | zero => rfl
  | succ k ih => simp [beBytes, ih]

theorem beVal_append_single (l : List Nat) (b : Nat) :
    beVal (l ++ [b]) = beVal l * 256 + b := by
  induction l with
  | nil => simp [beVal]
  | cons x xs ih =>
    simp [beVal, ih, List.length_append]
    ring

theorem beVal_beBytes (k v : Nat) (h : v < 256 ^ k) : beVal (beBytes k v) = v := by
  induction k generalizing v with
  | zero => simp [beBytes, beVal]; omega
  | succ k ih =>
    have hdiv : v / 256 < 256 ^ k := by
      rw [Nat.div_lt_iff_lt_mul (by omega : 0 < 256)]
      calc v < 256 ^ (k + 1) := h
        _ = 256 ^ k * 256 := by ring
    rw [beBytes, beVal_append_single, ih (v / 256) hdiv]
    omega

/-- Read exactly `k` bytes from the front of a byte list. -/
def readN (k : Nat) (l : List Nat) : Except String (List Nat × List Nat) :=
  if k ≤ l.length then .ok (l.take k, l.drop k) else .error "unexpected end of input"

theorem readN_append (bs r : List Nat) : readN bs.length (bs ++ r) = .ok (bs, r) := by
  simp [readN]

theorem exceptBind_ok {ε α β : Type} (a : α) (f : α → Except ε β) :
    (Except.ok a >>= f) = f a := rfl

/-- MessagePack encoding of an unsigned 64-bit integer as emitted by
`rmp::encode::write_uint` (minimal-width representation). -/
def encUInt (v : Nat) : List Nat :=
  if v < 128 then [v]
  else if v < 256 then [0xcc, v]
  else if v < 65536 then 0xcd :: beBytes 2 v
  else if v < 4294967296 then 0xce :: beBytes 4 v
  else 0xcf :: beBytes 8 v

/-- MessagePack decoding of an unsigned integer (the markers the writer
emits: positive fixint, uint8, uint16, uint32, uint64). -/
def decUInt : List Nat → Except String (Nat × List Nat)
  | [] => .error "unexpected end of input"
  | b :: rest =>
    if b < 128 then .ok (b, rest)
    else if b = 0xcc then
      match rest with
      | v :: r => .ok (v, r)
      | [] => .error "unexpected end of input"
    else if b = 0xcd then (readN 2 rest).map fun p => (beVal p.1, p.2)
    else if b = 0xce then (readN 4 rest).map fun p => (beVal p.1, p.2)
    else if b = 0xcf then (readN 8 rest).map fun p => (beVal p.1, p.2)
    else .error "invalid integer marker"

theorem encUInt_length_le (v : Nat) : (encUInt v).length ≤ 9 := by
  unfold encUInt
  split
  · simp
  · split
    · simp
    · split
      · simp [beBytes_length]
      · split <;> simp [beBytes_length]

theorem decUInt_encUInt (v : Nat) (r : List Nat) (h : v < 2 ^ 64) :
    decUInt (encUInt v ++ r) = .ok (v, r) := by
  unfold encUInt
  by_cases h1 : v < 128
  · simp [h1, decUInt]
  · by_cases h2 : v < 256
    · simp [h1, h2, decUInt]
    · by_cases h3 : v < 65536
      · have hb : (beBytes 2 v).length = 2 := beBytes_length 2 v
        simp only [if_neg h1, if_neg h2, if_pos h3, List.cons_append, decUInt]
        norm_num
        have hr := readN_append (beBytes 2 v) r
        rw [hb] at hr
        rw [hr]
        simp [Except.map, beVal_beBytes 2 v (by omega)]
      · by_cases h4 : v < 4294967296
        · have hb : (beBytes 4 v).length = 4 := beBytes_length 4 v
          simp only [if_neg h1, if_neg h2, if_neg h3, if_pos h4, List.cons_append, decUInt]
          norm_num
          have hr := readN_append (beBytes 4 v) r
          rw [hb] at hr
          rw [hr]
          simp [Except.map, beVal_beBytes 4 v (by omega)]
        · have hb : (beBytes 8 v).length = 8 := beBytes_length 8 v
          simp only [if_neg h1, if_neg h2, if_neg h3, if_neg h4, List.cons_append, decUInt]
          norm_num
          have hr := readN_append (beBytes 8 v) r
          rw [hb] at hr
          rw [hr]
          have : v < 256 ^ 8 := by norm_num; omega
          simp [Except.map, beVal_beBytes 8 v this]

/-- MessagePack array-length header (fixarray / array16 / array32). -/
def encArrayLen (n : Nat) : List Nat :=
  if n < 16 then [0x90 + n]
  else if n < 65536 then 0xdc :: beBytes 2 n
  else 0xdd :: beBytes 4 n

def decArrayLen : List Nat → Except String (Nat × List Nat)
  | [] => .error "unexpected end of input"
  | b :: rest =>
    if 0x90 ≤ b ∧ b < 0xa0 then .ok (b - 0x90, rest)
    else if b = 0xdc then (readN 2 rest).map fun p => (beVal p.1, p.2)
    else if b = 0xdd then (readN 4 rest).map fun p => (beVal p.1, p.2)
    else .error "invalid array marker"

theorem encArrayLen_length_le (n : Nat) : (encArrayLen n).length ≤ 5 := by
  unfold encArrayLen
  split
  · simp
  · split <;> simp [beBytes_length]

theorem decArrayLen_encArrayLen (n : Nat) (r : List Nat) (h : n < 2 ^ 32) :
    decArrayLen (encArrayLen n ++ r) = .ok (n, r) := by
  unfold encArrayLen
  by_cases h1 : n < 16
  · simp [h1, decArrayLen]; omega
  · by_cases h2 : n < 65536
    · have hb : (beBytes 2 n).length = 2 := beBytes_length 2 n
      simp only [if_neg h1, if_pos h2, List.cons_append, decArrayLen]
      norm_num
      have hr := readN_append (beBytes 2 n) r
      rw [hb] at hr
      rw [hr]
      simp [Except.map, beVal_beBytes 2 n (by omega)]
    · have hb : (beBytes 4 n).length = 4 := beBytes_length 4 n
      simp only [if_neg h1, if_neg h2, List.cons_append, decArrayLen]
      norm_num
      have hr := readN_append (beBytes 4 n) r
      rw [hb] at hr
      rw [hr]
      have : n < 256 ^ 4 := by norm_num at h ⊢; omega
      simp [Except.map, beVal_beBytes 4 n this]

/-- MessagePack string-length header (fixstr / str8 / str16 / str32). -/
def encStrLen (n : Nat) : List Nat :=
  if n < 32 then [0xa0 + n]
  else if n < 256 then [0xd9, n]
  else if n < 65536 then 0xda :: beBytes 2 n
  else 0xdb :: beBytes 4 n

def decStrLen : List Nat → Except String (Nat × List Nat)
  | [] => .error "unexpected end of input"
  | b :: rest =>
    if 0xa0 ≤ b ∧ b < 0xc0 then .ok (b - 0xa0, rest)
    else if b = 0xd9 then
      match rest with
      | v :: r => .ok (v, r)
      | [] => .error "unexpected end of input"
    else if b = 0xda then (readN 2 rest).map fun p => (beVal p.1, p.2)
    else if b = 0xdb then (readN 4 rest).map fun p => (beVal p.1, p.2)
    else .error "invalid string marker"

theorem decStrLen_encStrLen (n : Nat) (r : List Nat) (h : n < 2 ^ 32) :
    decStrLen (encStrLen n ++ r) = .ok (n, r) := by
  unfold encStrLen
  by_cases h1 : n < 32
  · simp [h1, decStrLen]; omega
  · by_cases h2 : n < 256
    · simp only [if_neg h1, if_pos h2, List.cons_append, decStrLen]
      norm_num
    · by_cases h3 : n < 65536
      · have hb : (beBytes 2 n).length = 2 := beBytes_length 2 n
        simp only [if_neg h1, if_neg h2, if_pos h3, List.cons_append, decStrLen]
        norm_num
        have hr := readN_append (beBytes 2 n) r
        rw [hb] at hr
        rw [hr]
        simp [Except.map, beVal_beBytes 2 n (by omega)]
      · have hb : (beBytes 4 n).length = 4 := beBytes_length 4 n
        simp only [if_neg h1, if_neg h2, if_neg h3, List.cons_append, decStrLen]
        norm_num
        have hr := readN_append (beBytes 4 n) r
        rw [hb] at hr
        rw [hr]
        have : n < 256 ^ 4 := by norm_num at h ⊢; omega
        simp [Except.map, beVal_beBytes 4 n this]

/-- MessagePack encoding of one string (its byte sequence). -/
def encStr (s : RStr) : List Nat := encStrLen s.length ++ s

def decStr (l : List Nat) : Except String (RStr × List Nat) := do
  let (n, l) ← decStrLen l
  readN n l

theorem decStr_encStr (s : RStr) (r : List Nat) (h : s.length < 2 ^ 32) :
    decStr (encStr s ++ r) = .ok (s, r) := by
  simp only [decStr, encStr, List.append_assoc]
  rw [decStrLen_encStrLen s.length (s ++ r) h]
  simpa using readN_append s r

/-- Decode `n` consecutive elements with the element decoder `dec1`. -/
def decSeq {α : Type} (dec1 : List Nat → Except String (α × List Nat)) :
    Nat → List Nat → Except String (List α × List Nat)
  | 0, l => .ok ([], l)
  | n + 1, l => do
    let (x, l) ← dec1 l
    let (xs, l) ← decSeq dec1 n l
    .ok (x :: xs, l)

theorem decSeq_flatMap {α : Type} (dec1 : List Nat → Except String (α × List Nat))
    (enc1 : α → List Nat) (xs : List α) (r : List Nat)
    (h : ∀ x ∈ xs, ∀ r2, dec1 (enc1 x ++ r2) = .ok (x, r2)) :
    decSeq dec1 xs.length (xs.flatMap enc1 ++ r) = .ok (xs, r) := by
  induction xs with
  | nil => simp [decSeq]
  | cons x rest ih =>
    have hx := h x (by simp) (rest.flatMap enc1 ++ r)
    simp only [List.length_cons, List.flatMap_cons, List.append_assoc, decSeq, hx,
      exceptBind_ok]
    rw [ih (fun y hy r2 => h y (by simp [hy]) r2)]
    rfl

/-- `serde` encoding of `Vec<u64>`: array header then each element. -/
def encU64List (xs : List Nat) : List Nat :=
  encArrayLen xs.length ++ xs.flatMap encUInt

def decU64List (l : List Nat) : Except String (List Nat × List Nat) := do
  let (n, l) ← decArrayLen l
  decSeq decUInt n l

theorem decU64List_encU64List (xs : List Nat) (r : List Nat)
    (hlen : xs.length < 2 ^ 32) (helem : ∀ x ∈ xs, x < 2 ^ 64) :
    decU64List (encU64List xs ++ r) = .ok (xs, r) := by
  simp only [decU64List, encU64List, List.append_assoc]
  rw [decArrayLen_encArrayLen xs.length _ hlen]
  simp only [exceptBind_ok]
  exact decSeq_flatMap decUInt encUInt xs r fun x hx r2 => decUInt_encUInt x r2 (helem x hx)

/-- `serde` encoding of `Vec<String>`: array header then each string. -/
def encStrList (xs : List RStr) : List Nat :=
  encArrayLen xs.length ++ xs.flatMap encStr

def decStrList (l : List Nat) : Except String (List RStr × List Nat) := do
  let (n, l) ← decArrayLen l
  decSeq decStr n l

theorem decStrList_encStrList (xs : List RStr) (r : List Nat)
    (hlen : xs.length < 2 ^ 32) (helem : ∀ x ∈ xs, x.length < 2 ^ 32) :
    decStrList (encStrList xs ++ r) = .ok (xs, r) := by
  simp only [decStrList, encStrList, List.append_assoc]
  rw [decArrayLen_encArrayLen xs.length _ hlen]
  simp only [exceptBind_ok]
  exact decSeq_flatMap decStr encStr xs r fun x hx r2 => decStr_encStr x r2 (helem x hx)

theorem encU64List_length_le (xs : List Nat) :
    (encU64List xs).length ≤ 5 + 9 * xs.length := by
  have hflat : (xs.flatMap encUInt).length ≤ 9 * xs.length := by
    induction xs with
    | nil => simp
    | cons x rest ih =>
      have := encUInt_length_le x
      simp only [List.flatMap_cons, List.length_append, List.length_cons]
      omega
  have := encArrayLen_length_le xs.length
  simp only [encU64List, List.length_append]
  omega

/-! ## Block header (`BlockHeader` and `header_size` in block.rs) -/

/-- The on-disk block header.  The Rust fields `from` and `to` are named
`fromTs` / `toTs` here because `from` and `to` are Lean keywords. -/
structure BlockHeader where
  start : Nat
  tags : Nat
  keys : Nat
  timestamps : Nat
  index : List Nat
  fromTs : Nat
  toTs : Nat
  size : Nat
  deriving Repr, DecidableEq

/-- Upper bound of the size of the header on disk (`header_size` in block.rs):
`(struct byte) + (4 * u64) + (max array overhead) + (size * u64) + (2 * u64) + (1 * u64)`. -/
def header_size (size : Nat) : Nat :=
  1 + 4 * 9 + 5 + size * 9 + 2 * 9 + 9

/-- `rmp_serde` serialises the `BlockHeader` struct as a fix-array of its
8 fields in declaration order. -/
def encHeader (h : BlockHeader) : List Nat :=
  encArrayLen 8 ++ encUInt h.start ++ encUInt h.tags ++ encUInt h.keys ++
    encUInt h.timestamps ++ encU64List h.index ++ encUInt h.fromTs ++
    encUInt h.toTs ++ encUInt h.size

def decHeader (l : List Nat) : Except String (BlockHeader × List Nat) := do
  let (n, l) ← decArrayLen l
  if n = 8 then
    let (start, l) ← decUInt l
    let (tagsOff, l) ← decUInt l
    let (keysOff, l) ← decUInt l
    let (tsOff, l) ← decUInt l
    let (index, l) ← decU64List l
    let (fromTs, l) ← decUInt l
    let (toTs, l) ← decUInt l
    let (size, l) ← decUInt l
    .ok (⟨start, tagsOff, keysOff, tsOff, index, fromTs, toTs, size⟩, l)
  else .error "wrong number of struct fields"

/-- The `u64`/`usize` machine-width invariants of a header's fields. -/
def HeaderBounds (h : BlockHeader) : Prop :=
  h.start < 2 ^ 64 ∧ h.tags < 2 ^ 64 ∧ h.keys < 2 ^ 64 ∧ h.timestamps < 2 ^ 64 ∧
    h.index.length < 2 ^ 32 ∧ (∀ x ∈ h.index, x < 2 ^ 64) ∧
    h.fromTs < 2 ^ 64 ∧ h.toTs < 2 ^ 64 ∧ h.size < 2 ^ 64

instance (h : BlockHeader) : Decidable (HeaderBounds h) :=
  inferInstanceAs (Decidable (h.start < 2 ^ 64 ∧ h.tags < 2 ^ 64 ∧ h.keys < 2 ^ 64 ∧
    h.timestamps < 2 ^ 64 ∧ h.index.length < 2 ^ 32 ∧ (∀ x ∈ h.index, x < 2 ^ 64) ∧
    h.fromTs < 2 ^ 64 ∧ h.toTs < 2 ^ 64 ∧ h.size < 2 ^ 64))

theorem decHeader_encHeader (h : BlockHeader) (r : List Nat) (hb : HeaderBounds h) :
    decHeader (encHeader h ++ r) = .ok (h, r) := by
  obtain ⟨h1, h2, h3, h4, h5, h6, h7, h8, h9⟩ := hb
  simp only [decHeader, encHeader, List.append_assoc]
  rw [decArrayLen_encArrayLen 8 _ (by norm_num)]
  simp only [exceptBind_ok, if_pos rfl,
    decUInt_encUInt _ _ h1, decUInt_encUInt _ _ h2, decUInt_encUInt _ _ h3,
    decUInt_encUInt _ _ h4, decU64List_encU64List _ _ h5 h6,
    decUInt_encUInt _ _ h7, decUInt_encUInt _ _ h8, decUInt_encUInt _ _ h9]
  norm_num

/-- The encoded header always fits inside the reserved `header_size` region. -/
theorem encHeader_length_le (h : BlockHeader) :
    (encHeader h).length ≤ header_size h.index.length := by
  have e1 := encUInt_length_le h.start
  have e2 := encUInt_length_le h.tags
  have e3 := encUInt_length_le h.keys
  have e4 := encUInt_length_le h.timestamps
  have e5 := encU64List_length_le h.index
  have e6 := encUInt_length_le h.fromTs
  have e7 := encUInt_length_le h.toTs
  have e8 := encUInt_length_le h.size
  simp only [encHeader, List.length_append, encArrayLen, header_size]
  norm_num
  omega

/-! ## Seekable stream model -/

/-- Model of a seekable byte stream (`Cursor<Vec<u8>>` / `File`): the byte
contents and the current position.  Writing past the end pads with zero
bytes, as a sparse file does. -/
structure MStream where
  data : List Nat
  pos : Nat
  deriving Repr, DecidableEq

def writeBytes (s : MStream) (bs : List Nat) : MStream :=
  ⟨s.data.take s.pos ++ List.replicate (s.pos - s.data.length) 0 ++ bs ++
      s.data.drop (s.pos + bs.length),
    s.pos + bs.length⟩

def seekTo (s : MStream) (p : Nat) : MStream := ⟨s.data, p⟩

/-- The byte suffix of the stream starting at absolute offset `p`. -/
def readAt (s : MStream) (p : Nat) : List Nat := s.data.drop p

theorem writeBytes_pos (s : MStream) (bs : List Nat) :
    (writeBytes s bs).pos = s.pos + bs.length := rfl

theorem take_len_append {α : Type} (A B : List α) (n : Nat) (h : A.length = n) :
    (A ++ B).take n = A := by
  subst h; exact List.take_left A B

theorem drop_len_append {α : Type} (A B : List α) (n : Nat) (h : A.length = n) :
    (A ++ B).drop n = B := by
  subst h; exact List.drop_left A B

theorem drop_append_ge {α : Type} (A B : List α) (p : Nat) (h : A.length ≤ p) :
    (A ++ B).drop p = B.drop (p - A.length) := by
  have hp : A.length + (p - A.length) = p := by omega
  rw [← hp, List.drop_append]
  congr 1
  omega

theorem mstream_ext {x y : MStream} (hd : x.data = y.data) (hp : x.pos = y.pos) :
    x = y := by
  cases x; cases y; cases hd; cases hp; rfl

theorem writeBytes_prefix_length (s : MStream) :
    (s.data.take s.pos ++ List.replicate (s.pos - s.data.length) 0).length = s.pos := by
  simp [List.length_take, List.length_replicate]
  omega

theorem writeBytes_drop_pos (s : MStream) (bs : List Nat) :
    (writeBytes s bs).data.drop s.pos = bs ++ s.data.drop (s.pos + bs.length) := by
  show (s.data.take s.pos ++ List.replicate (s.pos - s.data.length) 0 ++ bs ++
      s.data.drop (s.pos + bs.length)).drop s.pos = _
  rw [List.append_assoc (s.data.take s.pos ++ List.replicate (s.pos - s.data.length) 0)]
  exact drop_len_append _ _ _ (writeBytes_prefix_length s)

theorem writeBytes_data_length (s : MStream) (bs : List Nat) :
    (writeBytes s bs).data.length = max (s.pos + bs.length) s.data.length := by
  simp [writeBytes, List.length_take, List.length_replicate, List.length_drop]
  omega

theorem writeBytes_writeBytes (s : MStream) (a b : List Nat) :
    writeBytes (writeBytes s a) b = writeBytes s (a ++ b) := by
  have hA : (s.data.take s.pos ++ List.replicate (s.pos - s.data.length) 0 ++ a).length
      = s.pos + a.length := by
    have := writeBytes_prefix_length s
    simp only [List.append_assoc, List.length_append] at this ⊢
    omega
  have hD1 : (writeBytes s a).data =
      (s.data.take s.pos ++ List.replicate (s.pos - s.data.length) 0 ++ a) ++
        s.data.drop (s.pos + a.length) := by
    simp [writeBytes, List.append_assoc]
  have htake : (writeBytes s a).data.take (s.pos + a.length) =
      s.data.take s.pos ++ List.replicate (s.pos - s.data.length) 0 ++ a := by
    rw [hD1]; exact take_len_append _ _ _ hA
  have hrep : List.replicate ((s.pos + a.length) - (writeBytes s a).data.length) 0
      = ([] : List Nat) := by
    rw [writeBytes_data_length]
    simp only [List.replicate_eq_nil_iff]
    omega
  have hdrop : (writeBytes s a).data.drop ((s.pos + a.length) + b.length) =
      s.data.drop (s.pos + a.length + b.length) := by
    rw [hD1, drop_append_ge _ _ _ (by rw [hA]; omega), hA]
    have h2 : s.pos + a.length + b.length - (s.pos + a.length) = b.length := by omega
    rw [h2, List.drop_drop]
  apply mstream_ext
  · show (writeBytes s a).data.take (s.pos + a.length) ++
        List.replicate ((s.pos + a.length) - (writeBytes s a).data.length) 0 ++ b ++
        (writeBytes s a).data.drop ((s.pos + a.length) + b.length) = _
    rw [htake, hrep, hdrop]
    show _ = s.data.take s.pos ++ List.replicate (s.pos - s.data.length) 0 ++ (a ++ b) ++
        s.data.drop (s.pos + (a ++ b).length)
    simp [List.append_assoc, List.length_append, Nat.add_assoc]
  · show s.pos + a.length + b.length = s.pos + (a ++ b).length
    simp [List.length_append, Nat.add_assoc]

/-! ## Delta coding of posting lists (write_impl / read_index in block.rs) -/

/-- `buf.push(ind[i] - ind[i-1])` for `i ≥ 1` (Rust `u64` subtraction; the
writer only meets sorted lists, where `Nat` subtraction agrees). -/
def deltaTail (prev : Nat) : List Nat → List Nat
  | [] => []
  | y :: rest => (y - prev) :: deltaTail y rest

/-- The delta encoding `write_impl` produces for one posting list: first
element absolute, the rest consecutive differences. -/
def delta : List Nat → List Nat
  | [] => []
  | x :: rest => x :: deltaTail x rest

def undeltaTail (prev : Nat) : List Nat → List Nat
  | [] => []
  | y :: rest => (prev + y) :: undeltaTail (prev + y) rest

/-- The prefix-sum loop of `read_index`: `ind[i] += ind[i-1]` for `i ≥ 1`. -/
def undelta : List Nat → List Nat
  | [] => []
  | x :: rest => x :: undeltaTail x rest

theorem undeltaTail_deltaTail (prev : Nat) (l : List Nat)
    (h : List.Chain (· ≤ ·) prev l) : undeltaTail prev (deltaTail prev l) = l := by
  induction l generalizing prev with
  | nil => rfl
  | cons y rest ih =>
    cases h with
    | cons hy hrest =>
      simp only [deltaTail, undeltaTail]
      rw [Nat.add_sub_cancel' hy]
      exact congrArg (y :: ·) (ih y hrest)

theorem undelta_delta (l : List Nat) (h : List.Chain' (· ≤ ·) l) :
    undelta (delta l) = l := by
  cases l with
  | nil => rfl
  | cons x rest =>
    simp only [delta, undelta]
    exact congrArg (x :: ·) (undeltaTail_deltaTail x rest h)

theorem delta_length (l : List Nat) : (delta l).length = l.length := by
  cases l with
  | nil => rfl
  | cons x rest =>
    have : ∀ prev t, (deltaTail prev t).length = List.length t := by
      intro prev t
      induction t generalizing prev with
      | nil => rfl
      | cons y r ih => simp [deltaTail, ih]
    simp [delta, this]

/-! ## `BlockData` and the block codec (block.rs) -/

/-- `BlockData`: the observable contents of a block.  `index` slots are
`Option` because posting lists are lazily loaded (`None` = not loaded). -/
structure BlockData where
  tags : List RStr
  keys : List RStr
  timestamps : List Nat
  index : List (Option (List Nat))
  deriving Repr, DecidableEq

/-- The posting-list section of `write_impl`: records the stream position of
each list, then writes its delta encoding; a missing (`None`) slot is the
error `all indexes must be loaded to save the block`. -/
def writeIndexes : List (Option (List Nat)) → MStream → Except String (List Nat × MStream)
  | [], s => .ok ([], s)
  | none :: _, _ => .error "all indexes must be loaded to save the block"
  | some ind :: rest, s =>
    match writeIndexes rest (writeBytes s (encU64List (delta ind))) with
    | .ok (offs, sOut) => .ok (s.pos :: offs, sOut)
    | .error e => .error e

/-- `BlockData::write_impl`: reserve `header_size` bytes, write the `tags`,
`keys` and `timestamps` sections and the delta-coded posting lists while
recording their offsets, then seek back and write the header, asserting it
fits in the reserved region, and finally position the stream at the end of
the block.  The `assert!` is a panic; it is modelled as the error value
`panic: header has overwritten data`. -/
def writeImpl (b : BlockData) (s0 : MStream) : Except String (BlockHeader × MStream) :=
  let hsize := header_size b.index.length
  let start := s0.pos
  let s1 := seekTo s0 (start + hsize)
  let tagsOff := s1.pos
  let s2 := writeBytes s1 (encStrList b.tags)
  let keysOff := s2.pos
  let s3 := writeBytes s2 (encStrList b.keys)
  let tsOff := s3.pos
  let s4 := writeBytes s3 (encU64List b.timestamps)
  match writeIndexes b.index s4 with
  | .error e => .error e
  | .ok (offs, s5) =>
    let header : BlockHeader :=
      ⟨start, tagsOff, keysOff, tsOff, offs,
        (b.timestamps.head?.getD 0), (b.timestamps.getLast?.getD 0), s5.pos - start⟩
    let s6 := writeBytes (seekTo s5 start) (encHeader header)
    if start + hsize < s6.pos then .error "panic: header has overwritten data"
    else .ok (header, seekTo s6 (start + header.size))

/-- `BlockHeader::read_header`: seek to `start` and decode a header. -/
def read_header (s : MStream) (start : Nat) : Except String BlockHeader :=
  match decHeader (readAt s start) with
  | .ok (h, _) => .ok h
  | .error e => .error e

/-- A `BlockFile`: the backing stream, the decoded header and the (partially
loaded) block data. -/
structure BlockFile where
  file : MStream
  header : BlockHeader
  data : BlockData
  deriving Repr, DecidableEq

/-- `BlockHeader::read_meta`: decode the `tags`, `keys` and `timestamps`
sections at their recorded offsets; posting-list slots start out unloaded. -/
def read_meta (h : BlockHeader) (s : MStream) : Except String BlockFile := do
  let (tags, _) ← decStrList (readAt s h.tags)
  let (keys, _) ← decStrList (readAt s h.keys)
  let (timestamps, _) ← decU64List (readAt s h.timestamps)
  .ok ⟨s, h, ⟨tags, keys, timestamps, List.replicate h.index.length none⟩⟩

/-- `BlockFile::read_index` (SearchBlock impl): if the slot is already
loaded do nothing; otherwise decode the delta sequence at the recorded
offset and reconstruct absolute ordinals by prefix sum. -/
def read_index (bf : BlockFile) (id : Nat) : Except String BlockFile :=
  match bf.data.index[id]? with
  | Option.none => .error "panic: index out of bounds"
  | Option.some (Option.some _) => .ok bf
  | Option.some Option.none =>
    match bf.header.index[id]? with
    | Option.none => .error "panic: index out of bounds"
    | Option.some off =>
      match decU64List (readAt bf.file off) with
      | .error e => .error e
      | .ok (ind, _) =>
        .ok ⟨bf.file, bf.header,
          ⟨bf.data.tags, bf.data.keys, bf.data.timestamps,
            bf.data.index.set id (some (undelta ind))⟩⟩

/-- `BlockFile::read_all`: `read_index` on every slot in order. -/
def read_all (bf : BlockFile) : Except String BlockFile :=
  (List.range bf.data.index.length).foldlM (fun b i => read_index b i) bf

/-! ## Layout lemmas for the write path -/

/-- The byte chunk one posting-list slot contributes to the stream. -/
def chunkOf (o : Option (List Nat)) : List Nat := encU64List (delta (o.getD []))

def concatAll : List (List Nat) → List Nat
  | [] => []
  | c :: cs => c ++ concatAll cs

/-- The offsets the posting-list writer records: cumulative sums of the
chunk lengths starting at `p`. -/
def offsetsFrom (p : Nat) : List (List Nat) → List Nat
  | [] => []
  | c :: cs => p :: offsetsFrom (p + c.length) cs

theorem offsetsFrom_length (p : Nat) (cs : List (List Nat)) :
    (offsetsFrom p cs).length = cs.length := by
  induction cs generalizing p with
  | nil => rfl
  | cons c rest ih => simp [offsetsFrom, ih]

theorem offsetsFrom_mem_bound (p : Nat) (cs : List (List Nat)) :
    ∀ x ∈ offsetsFrom p cs, p ≤ x ∧ x ≤ p + (concatAll cs).length := by
  induction cs generalizing p with
  | nil => simp [offsetsFrom]
  | cons c rest ih =>
    intro x hx
    simp only [offsetsFrom, List.mem_cons] at hx
    rcases hx with rfl | hx
    · simp
    · have := ih (p + c.length) x hx
      simp only [concatAll, List.length_append]
      omega

/-- Reading the stream at a recorded offset exposes the corresponding chunk. -/
theorem offsetsFrom_readback (cs : List (List Nat)) (p : Nat) (D junk : List Nat)
    (hD : D.drop p = concatAll cs ++ junk) :
    ∀ (i : Nat) (c : List Nat) (off : Nat),
      cs[i]? = some c → (offsetsFrom p cs)[i]? = some off →
      ∃ suf, D.drop off = c ++ suf := by
  induction cs generalizing p junk with
  | nil => intro i c off hc; simp at hc
  | cons c0 rest ih =>
    intro i c off hc hoff
    cases i with
    | zero =>
      simp only [offsetsFrom, List.getElem?_cons_zero, Option.some.injEq] at hc hoff
      subst hc
      subst hoff
      exact ⟨concatAll rest ++ junk, by rw [hD]; simp [concatAll]⟩
    | succ j =>
      simp only [offsetsFrom, List.getElem?_cons_succ] at hc hoff
      have hD2 : D.drop (p + c0.length) = concatAll rest ++ junk := by
        have : D.drop (p + c0.length) = (D.drop p).drop c0.length := by
          rw [List.drop_drop]
        rw [this, hD, concatAll, List.append_assoc]
        exact drop_len_append _ _ _ rfl
      exact ih (p + c0.length) junk hD2 j c off hc hoff

/-- Collapsing `writeIndexes` into a single `writeBytes` of all chunks. -/
theorem writeIndexes_eq (slots : List (Option (List Nat))) (s : MStream) (bs : List Nat)
    (h : ∀ o ∈ slots, o ≠ none) :
    writeIndexes slots (writeBytes s bs) =
      .ok (offsetsFrom (s.pos + bs.length) (slots.map chunkOf),
        writeBytes s (bs ++ concatAll (slots.map chunkOf))) := by
  induction slots generalizing bs with
  | nil => simp [writeIndexes, offsetsFrom, concatAll]
  | cons o rest ih =>
    match o with
    | none => exact absurd rfl (h none (by simp))
    | some ind =>
      have hrec := ih (bs ++ chunkOf (some ind)) (fun o ho => h o (by simp [ho]))
      simp only [writeIndexes, writeBytes_writeBytes] at hrec ⊢
      rw [show chunkOf (some ind) = encU64List (delta ind) from rfl] at hrec
      rw [hrec]
      simp only [List.map_cons, offsetsFrom, concatAll, writeBytes_pos]
      rw [List.append_assoc]
      simp [chunkOf, List.length_append, Nat.add_assoc]

/-- Executable check that a list is strictly increasing. -/
def chainLtB : List Nat → Bool
  | [] => true
  | [_] => true
  | x :: y :: rest => decide (x < y) && chainLtB (y :: rest)

theorem chainLtB_iff (l : List Nat) : chainLtB l = true ↔ List.Chain' (· < ·) l := by
  induction l with
  | nil => simp [chainLtB]
  | cons x rest ih =>
    cases rest with
    | nil => simp [chainLtB]
    | cons y r =>
      rw [chainLtB, Bool.and_eq_true, decide_eq_true_eq, ih, List.chain'_cons]

/-- Executable check that a list is non-decreasing. -/
def chainLeB : List Nat → Bool
  | [] => true
  | [_] => true
  | x :: y :: rest => decide (x ≤ y) && chainLeB (y :: rest)

theorem chainLeB_iff (l : List Nat) : chainLeB l = true ↔ List.Chain' (· ≤ ·) l := by
  induction l with
  | nil => simp [chainLeB]
  | cons x rest ih =>
    cases rest with
    | nil => simp [chainLeB]
    | cons y r =>
      rw [chainLeB, Bool.and_eq_true, decide_eq_true_eq, ih, List.chain'_cons]

/-- A legal block for writing: every posting-list slot is loaded and every
posting list is strictly increasing. -/
def LegalBlock (b : BlockData) : Prop :=
  ∀ o ∈ b.index, o ≠ none ∧ List.Chain' (· < ·) (o.getD [])

instance (b : BlockData) : Decidable (LegalBlock b) :=
  decidable_of_iff (∀ o ∈ b.index, o ≠ none ∧ chainLtB (o.getD []) = true) (by
    constructor
    · intro h o ho
      exact ⟨(h o ho).1, (chainLtB_iff _).mp (h o ho).2⟩
    · intro h o ho
      exact ⟨(h o ho).1, (chainLtB_iff _).mpr (h o ho).2⟩)

/-- Machine-width invariants of a block's contents (`usize` lengths,
`u64` values), guaranteed by the Rust types. -/
def BlockBounds (b : BlockData) : Prop :=
  b.tags.length < 2 ^ 32 ∧ (∀ t ∈ b.tags, t.length < 2 ^ 32) ∧
    b.keys.length < 2 ^ 32 ∧ (∀ k ∈ b.keys, k.length < 2 ^ 32) ∧
    b.timestamps.length < 2 ^ 32 ∧ (∀ x ∈ b.timestamps, x < 2 ^ 64) ∧
    b.index.length < 2 ^ 32 ∧
    ∀ o ∈ b.index, (o.getD []).length < 2 ^ 32 ∧ ∀ x ∈ o.getD [], x < 2 ^ 64

instance (b : BlockData) : Decidable (BlockBounds b) :=
  inferInstanceAs (Decidable (b.tags.length < 2 ^ 32 ∧ (∀ t ∈ b.tags, t.length < 2 ^ 32) ∧
    b.keys.length < 2 ^ 32 ∧ (∀ k ∈ b.keys, k.length < 2 ^ 32) ∧
    b.timestamps.length < 2 ^ 32 ∧ (∀ x ∈ b.timestamps, x < 2 ^ 64) ∧
    b.index.length < 2 ^ 32 ∧
    ∀ o ∈ b.index, (o.getD []).length < 2 ^ 32 ∧ ∀ x ∈ o.getD [], x < 2 ^ 64))

/-- Total number of bytes one block occupies on disk. -/
def encodedSize (b : BlockData) : Nat :=
  header_size b.index.length + (encStrList b.tags).length + (encStrList b.keys).length +
    (encU64List b.timestamps).length + (concatAll (b.index.map chunkOf)).length

theorem deltaTail_mem_le (prev : Nat) (t : List Nat) :
    ∀ x ∈ deltaTail prev t, ∃ y ∈ t, x ≤ y := by
  induction t generalizing prev with
  | nil => simp [deltaTail]
  | cons y rest ih =>
    intro x hx
    simp only [deltaTail, List.mem_cons] at hx
    rcases hx with rfl | hx
    · exact ⟨y, by simp, Nat.sub_le y prev⟩
    · obtain ⟨z, hz, hle⟩ := ih y x hx
      exact ⟨z, by simp [hz], hle⟩

theorem delta_mem_lt (l : List Nat) (h : ∀ x ∈ l, x < 2 ^ 64) :
    ∀ x ∈ delta l, x < 2 ^ 64 := by
  cases l with
  | nil => simp [delta]
  | cons a rest =>
    intro x hx
    simp only [delta, List.mem_cons] at hx
    rcases hx with rfl | hx
    · exact h x (by simp)
    · obtain ⟨y, hy, hle⟩ := deltaTail_mem_le a rest x hx
      exact lt_of_le_of_lt hle (h y (by simp [hy]))

theorem set_append_len {α : Type} (A l : List α) (v : α) :
    (A ++ l).set A.length v = A ++ l.set 0 v := by
  induction A with
  | nil => simp
  | cons a rest ih => simp [List.set, ih]

/-- Bytes at or past the end of a write are untouched. -/
theorem writeBytes_drop_ge (s : MStream) (bs : List Nat) (q : Nat)
    (h : s.pos + bs.length ≤ q) :
    (writeBytes s bs).data.drop q = s.data.drop q := by
  have hA : (s.data.take s.pos ++ List.replicate (s.pos - s.data.length) 0 ++ bs).length
      = s.pos + bs.length := by
    have := writeBytes_prefix_length s
    simp only [List.append_assoc, List.length_append] at this ⊢
    omega
  show (s.data.take s.pos ++ List.replicate (s.pos - s.data.length) 0 ++ bs ++
      s.data.drop (s.pos + bs.length)).drop q = _
  rw [List.append_assoc (s.data.take s.pos ++ List.replicate (s.pos - s.data.length) 0)]
  rw [← List.append_assoc]
  rw [drop_append_ge _ _ _ (by rw [hA]; omega), hA, List.drop_drop]
  congr 1
  omega

/-- The header `write_impl` computes for a block written at offset `S`. -/
def headerFor (b : BlockData) (S : Nat) : BlockHeader :=
  let hn := header_size b.index.length
  let tE := encStrList b.tags
  let kE := encStrList b.keys
  let tsE := encU64List b.timestamps
  let cs := b.index.map chunkOf
  ⟨S, S + hn, S + hn + tE.length, S + hn + (tE ++ kE).length,
    offsetsFrom (S + hn + (tE ++ kE ++ tsE).length) cs,
    b.timestamps.head?.getD 0, b.timestamps.getLast?.getD 0,
    S + hn + (tE ++ kE ++ tsE ++ concatAll cs).length - S⟩

/-- The stream `write_impl` leaves behind. -/
def wOut (b : BlockData) (s0 : MStream) : MStream :=
  let S := s0.pos
  let hn := header_size b.index.length
  let content := encStrList b.tags ++ encStrList b.keys ++ encU64List b.timestamps ++
    concatAll (b.index.map chunkOf)
  seekTo (writeBytes (seekTo (writeBytes (seekTo s0 (S + hn)) content) S)
    (encHeader (headerFor b s0.pos))) (S + (headerFor b s0.pos).size)

theorem headerFor_index_length (b : BlockData) (S : Nat) :
    (headerFor b S).index.length = b.index.length := by
  simp [headerFor, offsetsFrom_length]

theorem writeImpl_eq_ok (b : BlockData) (s0 : MStream)
    (hLegal : ∀ o ∈ b.index, o ≠ none) :
    writeImpl b s0 = .ok (headerFor b s0.pos, wOut b s0) := by
  have hIE := writeIndexes_eq b.index (seekTo s0 (s0.pos + header_size b.index.length))
      (encStrList b.tags ++ encStrList b.keys ++ encU64List b.timestamps) hLegal
  have hfits := encHeader_length_le (headerFor b s0.pos)
  rw [headerFor_index_length] at hfits
  simp only [writeImpl, writeBytes_writeBytes]
  rw [hIE]
  dsimp only []
  split
  · rename_i hcond
    exfalso
    revert hcond
    show ¬ (s0.pos + header_size b.index.length <
      s0.pos + (encHeader (headerFor b s0.pos)).length)
    omega
  · rfl

theorem wOut_drop_start (b : BlockData) (s0 : MStream) :
    ∃ r, (wOut b s0).data.drop s0.pos = encHeader (headerFor b s0.pos) ++ r := by
  have h := writeBytes_drop_pos
    (seekTo (writeBytes (seekTo s0 (s0.pos + header_size b.index.length))
      (encStrList b.tags ++ encStrList b.keys ++ encU64List b.timestamps ++
        concatAll (b.index.map chunkOf))) s0.pos)
    (encHeader (headerFor b s0.pos))
  exact ⟨_, h⟩

/-- Past the reserved header region the final stream agrees with the
content-phase stream. -/
theorem wOut_drop_content (b : BlockData) (s0 : MStream) (q : Nat)
    (hq : s0.pos + header_size b.index.length ≤ q) :
    (wOut b s0).data.drop q =
      ((encStrList b.tags ++ encStrList b.keys ++ encU64List b.timestamps ++
          concatAll (b.index.map chunkOf)) ++
        s0.data.drop (s0.pos + header_size b.index.length +
          (encStrList b.tags ++ encStrList b.keys ++ encU64List b.timestamps ++
            concatAll (b.index.map chunkOf)).length)).drop
        (q - (s0.pos + header_size b.index.length)) := by
  have hfits := encHeader_length_le (headerFor b s0.pos)
  rw [headerFor_index_length] at hfits
  have h1 : (wOut b s0).data.drop q =
      (writeBytes (seekTo s0 (s0.pos + header_size b.index.length))
        (encStrList b.tags ++ encStrList b.keys ++ encU64List b.timestamps ++
          concatAll (b.index.map chunkOf))).data.drop q := by
    show (writeBytes (seekTo (writeBytes (seekTo s0 (s0.pos + header_size b.index.length)) _)
        s0.pos) (encHeader (headerFor b s0.pos))).data.drop q = _
    exact writeBytes_drop_ge _ _ q (by
      show s0.pos + (encHeader (headerFor b s0.pos)).length ≤ q
      omega)
  rw [h1]
  have h2 : (writeBytes (seekTo s0 (s0.pos + header_size b.index.length))
      (encStrList b.tags ++ encStrList b.keys ++ encU64List b.timestamps ++
        concatAll (b.index.map chunkOf))).data.drop q =
      ((writeBytes (seekTo s0 (s0.pos + header_size b.index.length))
        (encStrList b.tags ++ encStrList b.keys ++ encU64List b.timestamps ++
          concatAll (b.index.map chunkOf))).data.drop
            (s0.pos + header_size b.index.length)).drop
        (q - (s0.pos + header_size b.index.length)) := by
    rw [List.drop_drop]
    congr 1
    omega
  have h3 : (writeBytes (seekTo s0 (s0.pos + header_size b.index.length))
      (encStrList b.tags ++ encStrList b.keys ++ encU64List b.timestamps ++
        concatAll (b.index.map chunkOf))).data.drop
      (s0.pos + header_size b.index.length) =
      (encStrList b.tags ++ encStrList b.keys ++ encU64List b.timestamps ++
        concatAll (b.index.map chunkOf)) ++
        s0.data.drop (s0.pos + header_size b.index.length +
          (encStrList b.tags ++ encStrList b.keys ++ encU64List b.timestamps ++
            concatAll (b.index.map chunkOf)).length) :=
    writeBytes_drop_pos (seekTo s0 (s0.pos + header_size b.index.length))
      (encStrList b.tags ++ encStrList b.keys ++ encU64List b.timestamps ++
        concatAll (b.index.map chunkOf))
  rw [h2, h3]

theorem wOut_tags (b : BlockData) (s0 : MStream) :
    ∃ r, (wOut b s0).data.drop (headerFor b s0.pos).tags = encStrList b.tags ++ r := by
  have h := wOut_drop_content b s0 (s0.pos + header_size b.index.length) (Nat.le_refl _)
  rw [Nat.sub_self, List.drop_zero] at h
  simp only [List.append_assoc] at h
  exact ⟨_, h⟩

theorem wOut_keys (b : BlockData) (s0 : MStream) :
    ∃ r, (wOut b s0).data.drop (headerFor b s0.pos).keys = encStrList b.keys ++ r := by
  have h := wOut_drop_content b s0
    (s0.pos + header_size b.index.length + (encStrList b.tags).length) (by omega)
  rw [Nat.add_sub_cancel_left] at h
  rw [show (encStrList b.tags ++ encStrList b.keys ++ encU64List b.timestamps ++
      concatAll (b.index.map chunkOf)) ++
      s0.data.drop (s0.pos + header_size b.index.length +
        (encStrList b.tags ++ encStrList b.keys ++ encU64List b.timestamps ++
          concatAll (b.index.map chunkOf)).length) =
    encStrList b.tags ++ (encStrList b.keys ++ (encU64List b.timestamps ++
      (concatAll (b.index.map chunkOf) ++
        s0.data.drop (s0.pos + header_size b.index.length +
        (encStrList b.tags ++ encStrList b.keys ++ encU64List b.timestamps ++
          concatAll (b.index.map chunkOf)).length)))) from by
    simp [List.append_assoc]] at h
  rw [drop_len_append _ _ _ rfl] at h
  exact ⟨_, h⟩

theorem wOut_timestamps (b : BlockData) (s0 : MStream) :
    ∃ r, (wOut b s0).data.drop (headerFor b s0.pos).timestamps =
      encU64List b.timestamps ++ r := by
  have h := wOut_drop_content b s0
    (s0.pos + header_size b.index.length +
      (encStrList b.tags ++ encStrList b.keys).length) (by omega)
  rw [Nat.add_sub_cancel_left] at h
  rw [show (encStrList b.tags ++ encStrList b.keys ++ encU64List b.timestamps ++
      concatAll (b.index.map chunkOf)) ++
      s0.data.drop (s0.pos + header_size b.index.length +
        (encStrList b.tags ++ encStrList b.keys ++ encU64List b.timestamps ++
          concatAll (b.index.map chunkOf)).length) =
    (encStrList b.tags ++ encStrList b.keys) ++ (encU64List b.timestamps ++
      (concatAll (b.index.map chunkOf) ++
        s0.data.drop (s0.pos + header_size b.index.length +
        (encStrList b.tags ++ encStrList b.keys ++ encU64List b.timestamps ++
          concatAll (b.index.map chunkOf)).length))) from by
    simp [List.append_assoc]] at h
  rw [drop_len_append _ _ _ rfl] at h
  exact ⟨_, h⟩

theorem wOut_chunkSection (b : BlockData) (s0 : MStream) :
    (wOut b s0).data.drop
        (s0.pos + header_size b.index.length +
          (encStrList b.tags ++ encStrList b.keys ++ encU64List b.timestamps).length) =
      concatAll (b.index.map chunkOf) ++
        s0.data.drop (s0.pos + header_size b.index.length +
        (encStrList b.tags ++ encStrList b.keys ++ encU64List b.timestamps ++
          concatAll (b.index.map chunkOf)).length) := by
  have h := wOut_drop_content b s0
    (s0.pos + header_size b.index.length +
      (encStrList b.tags ++ encStrList b.keys ++ encU64List b.timestamps).length)
    (by omega)
  rw [Nat.add_sub_cancel_left] at h
  rw [show (encStrList b.tags ++ encStrList b.keys ++ encU64List b.timestamps ++
      concatAll (b.index.map chunkOf)) ++
      s0.data.drop (s0.pos + header_size b.index.length +
        (encStrList b.tags ++ encStrList b.keys ++ encU64List b.timestamps ++
          concatAll (b.index.map chunkOf)).length) =
    (encStrList b.tags ++ encStrList b.keys ++ encU64List b.timestamps) ++
      (concatAll (b.index.map chunkOf) ++
        s0.data.drop (s0.pos + header_size b.index.length +
        (encStrList b.tags ++ encStrList b.keys ++ encU64List b.timestamps ++
          concatAll (b.index.map chunkOf)).length)) from by
    simp [List.append_assoc]] at h
  rw [drop_len_append _ _ _ rfl] at h
  exact h

theorem wOut_chunks (b : BlockData) (s0 : MStream) :
    ∀ (j off : Nat) (o : Option (List Nat)),
      (headerFor b s0.pos).index[j]? = some off → b.index[j]? = some o →
      ∃ suf, (wOut b s0).data.drop off = chunkOf o ++ suf := by
  intro j off o hoff ho
  have hcs : (b.index.map chunkOf)[j]? = some (chunkOf o) := by
    rw [List.getElem?_map, ho]
    rfl
  have hoff2 : (offsetsFrom (s0.pos + header_size b.index.length +
      (encStrList b.tags ++ encStrList b.keys ++ encU64List b.timestamps).length)
      (b.index.map chunkOf))[j]? = some off := hoff
  exact offsetsFrom_readback (b.index.map chunkOf) _ (wOut b s0).data _
    (wOut_chunkSection b s0) j (chunkOf o) off hcs hoff2

theorem encodedSize_eq (b : BlockData) :
    encodedSize b = header_size b.index.length +
      (encStrList b.tags ++ encStrList b.keys ++ encU64List b.timestamps ++
        concatAll (b.index.map chunkOf)).length := by
  simp only [encodedSize, List.length_append]
  omega

theorem headerFor_bounds (b : BlockData) (p : Nat) (hB : BlockBounds b)
    (hFit : p + encodedSize b < 2 ^ 64) : HeaderBounds (headerFor b p) := by
  obtain ⟨hb1, hb2, hb3, hb4, hb5, hb6, hb7, hb8⟩ := hB
  have hes := encodedSize_eq b
  have hlen4 : (encStrList b.tags ++ encStrList b.keys ++ encU64List b.timestamps ++
      concatAll (b.index.map chunkOf)).length =
      (encStrList b.tags).length + (encStrList b.keys).length +
        (encU64List b.timestamps).length + (concatAll (b.index.map chunkOf)).length := by
    simp only [List.length_append]
  have hlen2 : (encStrList b.tags ++ encStrList b.keys).length =
      (encStrList b.tags).length + (encStrList b.keys).length := by
    simp only [List.length_append]
  have hlen3 : (encStrList b.tags ++ encStrList b.keys ++ encU64List b.timestamps).length =
      (encStrList b.tags).length + (encStrList b.keys).length +
        (encU64List b.timestamps).length := by
    simp only [List.length_append]
  refine ⟨?_, ?_, ?_, ?_, ?_, ?_, ?_, ?_, ?_⟩
  · show p < 2 ^ 64
    omega
  · show p + header_size b.index.length < 2 ^ 64
    omega
  · show p + header_size b.index.length + (encStrList b.tags).length < 2 ^ 64
    omega
  · show p + header_size b.index.length +
      (encStrList b.tags ++ encStrList b.keys).length < 2 ^ 64
    omega
  · show (offsetsFrom _ (b.index.map chunkOf)).length < 2 ^ 32
    rw [offsetsFrom_length, List.length_map]
    exact hb7
  · intro x hx
    have hmem := offsetsFrom_mem_bound
      (p + header_size b.index.length +
        (encStrList b.tags ++ encStrList b.keys ++ encU64List b.timestamps).length)
      (b.index.map chunkOf) x hx
    omega
  · show b.timestamps.head?.getD 0 < 2 ^ 64
    cases hh : b.timestamps.head? with
    | none => simp
    | some y => simpa using hb6 y (List.mem_of_mem_head? hh)
  · show b.timestamps.getLast?.getD 0 < 2 ^ 64
    cases hh : b.timestamps.getLast? with
    | none => simp
    | some y => simpa using hb6 y (List.mem_of_mem_getLast? hh)
  · show p + header_size b.index.length +
      (encStrList b.tags ++ encStrList b.keys ++ encU64List b.timestamps ++
        concatAll (b.index.map chunkOf)).length - p < 2 ^ 64
    omega

theorem read_header_wOut (b : BlockData) (s0 : MStream) (hB : BlockBounds b)
    (hFit : s0.pos + encodedSize b < 2 ^ 64) :
    read_header (wOut b s0) s0.pos = .ok (headerFor b s0.pos) := by
  obtain ⟨r, hr⟩ := wOut_drop_start b s0
  unfold read_header readAt
  rw [hr, decHeader_encHeader _ _ (headerFor_bounds b s0.pos hB hFit)]

theorem read_meta_wOut (b : BlockData) (s0 : MStream) (hB : BlockBounds b) :
    read_meta (headerFor b s0.pos) (wOut b s0) =
      .ok ⟨wOut b s0, headerFor b s0.pos,
        ⟨b.tags, b.keys, b.timestamps, List.replicate b.index.length none⟩⟩ := by
  obtain ⟨hb1, hb2, hb3, hb4, hb5, hb6, hb7, hb8⟩ := hB
  obtain ⟨r2, h2⟩ := wOut_tags b s0
  obtain ⟨r3, h3⟩ := wOut_keys b s0
  obtain ⟨r4, h4⟩ := wOut_timestamps b s0
  unfold read_meta readAt
  rw [h2, h3, h4, decStrList_encStrList _ _ hb1 hb2, decStrList_encStrList _ _ hb3 hb4,
    decU64List_encU64List _ _ hb5 hb6]
  simp only [exceptBind_ok]
  rw [headerFor_index_length]

/-- Loading every slot of a freshly `read_meta`'d block reconstructs the
original posting lists. -/
theorem read_fold_load (F : MStream) (hd : BlockHeader) (tg ky : List RStr)
    (ts : List Nat) (target : List (Option (List Nat)))
    (hdec : ∀ (j : Nat) (off : Nat) (o : Option (List Nat)),
      hd.index[j]? = some off → target[j]? = some o →
      ∃ l suf, o = some l ∧
        decU64List (readAt F off) = .ok (delta l, suf) ∧ undelta (delta l) = l)
    (hn : hd.index.length = target.length) :
    ∀ (m k : Nat), k + m = target.length →
      (List.range' k m).foldlM (fun bb i => read_index bb i)
        (⟨F, hd, ⟨tg, ky, ts, target.take k ++ List.replicate m none⟩⟩ : BlockFile) =
      .ok ⟨F, hd, ⟨tg, ky, ts, target⟩⟩ := by
  intro m
  induction m with
  | zero =>
    intro k hk
    rw [List.take_of_length_le (by omega)]
    simp [List.range', List.foldlM]
    rfl
  | succ m ih =>
    intro k hk
    have hkt : k < target.length := by omega
    have hkh : k < hd.index.length := by omega
    have hofft : target[k]? = some (target.get ⟨k, hkt⟩) := by
      rw [List.getElem?_eq_getElem hkt]
      rfl
    have hoffh : hd.index[k]? = some (hd.index.get ⟨k, hkh⟩) := by
      rw [List.getElem?_eq_getElem hkh]
      rfl
    obtain ⟨l, suf, hol, hdecl, hundl⟩ :=
      hdec k (hd.index.get ⟨k, hkh⟩) (target.get ⟨k, hkt⟩) hoffh hofft
    rw [List.range'_succ k m 1]
    rw [List.foldlM_cons]
    have hstep : read_index (⟨F, hd, ⟨tg, ky, ts,
        target.take k ++ List.replicate (m + 1) none⟩⟩ : BlockFile) k =
        .ok ⟨F, hd, ⟨tg, ky, ts, target.take (k + 1) ++ List.replicate m none⟩⟩ := by
      have hklen : (target.take k).length = k := by
        simp [List.length_take]; omega
      have hslot : (target.take k ++ List.replicate (m + 1) none)[k]? =
          some none := by
        rw [List.getElem?_append_right (by rw [hklen])]
        rw [hklen]
        simp
      unfold read_index
      rw [hslot]
      dsimp only []
      rw [hoffh]
      dsimp only []
      rw [hdecl]
      dsimp only []
      rw [hundl]
      have hset : (target.take k ++ List.replicate (m + 1) none).set k (some l) =
          target.take (k + 1) ++ List.replicate m none := by
        have hsa := set_append_len (target.take k) (List.replicate (m + 1) none) (some l)
        rw [hklen] at hsa
        rw [hsa, List.replicate_succ, List.take_succ, hofft, hol]
        simp [List.set]
      rw [hset]
    rw [hstep, exceptBind_ok]
    exact ih (k + 1) (by omega)

theorem read_all_wOut (b : BlockData) (s0 : MStream) (hLegal : LegalBlock b)
    (hB : BlockBounds b) :
    read_all ⟨wOut b s0, headerFor b s0.pos,
        ⟨b.tags, b.keys, b.timestamps, List.replicate b.index.length none⟩⟩ =
      .ok ⟨wOut b s0, headerFor b s0.pos, ⟨b.tags, b.keys, b.timestamps, b.index⟩⟩ := by
  obtain ⟨hb1, hb2, hb3, hb4, hb5, hb6, hb7, hb8⟩ := hB
  have hdec : ∀ (j : Nat) (off : Nat) (o : Option (List Nat)),
      (headerFor b s0.pos).index[j]? = some off → b.index[j]? = some o →
      ∃ l suf, o = some l ∧
        decU64List (readAt (wOut b s0) off) = .ok (delta l, suf) ∧
        undelta (delta l) = l := by
    intro j off o hoff ho
    obtain ⟨suf, hsuf⟩ := wOut_chunks b s0 j off o hoff ho
    have hmem : o ∈ b.index := List.getElem?_mem ho
    obtain ⟨hne, hchain⟩ := hLegal o hmem
    obtain ⟨hblen, hbelem⟩ := hb8 o hmem
    obtain ⟨l, rfl⟩ : ∃ l, o = some l := by
      cases o with
      | none => exact absurd rfl hne
      | some l => exact ⟨l, rfl⟩
    simp only [Option.getD_some] at hchain hblen hbelem
    refine ⟨l, suf, rfl, ?_, undelta_delta l (hchain.imp fun a c hac => Nat.le_of_lt hac)⟩
    show decU64List ((wOut b s0).data.drop off) = _
    rw [hsuf]
    show decU64List (encU64List (delta l) ++ suf) = _
    rw [decU64List_encU64List (delta l) suf (by rw [delta_length]; exact hblen)
      (delta_mem_lt l hbelem)]
  have hfold := read_fold_load (wOut b s0) (headerFor b s0.pos) b.tags b.keys
    b.timestamps b.index hdec
    (by rw [headerFor_index_length]) b.index.length 0 (by omega)
  unfold read_all
  have hlen : (⟨wOut b s0, headerFor b s0.pos,
      ⟨b.tags, b.keys, b.timestamps, List.replicate b.index.length none⟩⟩ :
        BlockFile).data.index.length = b.index.length := by
    simp
  rw [hlen, List.range_eq_range']
  exact hfold

/-- C2: writing a legal `BlockData` to a seekable stream and reading it back
via `read_header` at the same start offset, `read_meta`, and `read_index` on
every slot (`read_all`) yields a block equal to the original in `tags`,
`keys`, `timestamps` and `index`, with `header.from` equal to the first
timestamp (or 0 when empty) and `header.to` equal to the last (or 0 when
empty). -/
theorem c2_block_write_read_roundtrip (b : BlockData) (s0 : MStream)
    (hLegal : LegalBlock b) (hB : BlockBounds b)
    (hFit : s0.pos + encodedSize b < 2 ^ 64) :
    ∃ (hd : BlockHeader) (sOut : MStream) (bf : BlockFile),
      writeImpl b s0 = .ok (hd, sOut) ∧
      read_header sOut s0.pos = .ok hd ∧
      (read_meta hd sOut).bind read_all = .ok bf ∧
      bf.data.tags = b.tags ∧ bf.data.keys = b.keys ∧
      bf.data.timestamps = b.timestamps ∧ bf.data.index = b.index ∧
      hd.fromTs = b.timestamps.head?.getD 0 ∧
      hd.toTs = b.timestamps.getLast?.getD 0 := by
  refine ⟨headerFor b s0.pos, wOut b s0,
    ⟨wOut b s0, headerFor b s0.pos, ⟨b.tags, b.keys, b.timestamps, b.index⟩⟩,
    writeImpl_eq_ok b s0 (fun o ho => (hLegal o ho).1),
    read_header_wOut b s0 hB hFit, ?_, rfl, rfl, rfl, rfl, rfl, rfl⟩
  rw [read_meta_wOut b s0 hB]
  exact read_all_wOut b s0 hLegal hB

/-! ## Rust string ordering and the `BTreeMap` model -/

/-- Rust's `Ord` on `String` / byte slices: lexicographic byte order. -/
def rstrLtB : RStr → RStr → Bool
  | [], [] => false
  | [], _ :: _ => true
  | _ :: _, [] => false
  | x :: xs, y :: ys => if x < y then true else if y < x then false else rstrLtB xs ys

theorem rstrLtB_irrefl (a : RStr) : rstrLtB a a = false := by
  induction a with
  | nil => rfl
  | cons x xs ih => simp [rstrLtB, ih]

theorem rstrLtB_asymm (a b : RStr) (h : rstrLtB a b = true) : rstrLtB b a = false := by
  induction a generalizing b with
  | nil =>
    cases b with
    | nil => simpa [rstrLtB] using h
    | cons y ys => simp [rstrLtB]
  | cons x xs ih =>
    cases b with
    | nil => simp [rstrLtB] at h
    | cons y ys =>
      simp only [rstrLtB] at h ⊢
      by_cases hxy : x < y
      · rw [if_neg (by omega : ¬ y < x), if_pos hxy]
      · by_cases hyx : y < x
        · rw [if_neg hxy, if_pos hyx] at h
          exact absurd h (by simp)
        · rw [if_neg hxy, if_neg hyx] at h
          rw [if_neg hyx, if_neg hxy]
          exact ih ys h

theorem rstrLtB_total (a b : RStr) (hab : rstrLtB a b = false)
    (hba : rstrLtB b a = false) : a = b := by
  induction a generalizing b with
  | nil =>
    cases b with
    | nil => rfl
    | cons y ys => simp [rstrLtB] at hab
  | cons x xs ih =>
    cases b with
    | nil => simp [rstrLtB] at hba
    | cons y ys =>
      simp only [rstrLtB] at hab hba
      by_cases hxy : x < y
      · simp [hxy] at hab
      · by_cases hyx : y < x
        · simp [hyx, Nat.lt_asymm hyx] at hba
        · have : x = y := by omega
          subst this
          simp only [if_neg hxy, Nat.lt_irrefl, if_neg (by omega : ¬x < x)] at hab hba
          rw [ih ys hab hba]

theorem rstrLtB_trans (a b c : RStr) (hab : rstrLtB a b = true)
    (hbc : rstrLtB b c = true) : rstrLtB a c = true := by
  induction a generalizing b c with
  | nil =>
    cases c with
    | nil =>
      cases b with
      | nil => exact hab
      | cons y ys => simp [rstrLtB] at hbc
    | cons z zs => simp [rstrLtB]
  | cons x xs ih =>
    cases b with
    | nil => simp [rstrLtB] at hab
    | cons y ys =>
      cases c with
      | nil => simp [rstrLtB] at hbc
      | cons z zs =>
        simp only [rstrLtB] at hab hbc ⊢
        by_cases hxy : x < y
        · by_cases hyz : y < z
          · rw [if_pos (by omega : x < z)]
          · by_cases hzy : z < y
            · rw [if_neg hyz, if_pos hzy] at hbc
              exact absurd hbc (by simp)
            · have hyz2 : y = z := by omega
              subst hyz2
              rw [if_pos hxy]
        · by_cases hyx : y < x
          · rw [if_neg hxy, if_pos hyx] at hab
            exact absurd hab (by simp)
          · have hxy2 : x = y := by omega
            subst hxy2
            by_cases hyz : x < z
            · rw [if_pos hyz]
            · by_cases hzy : z < x
              · rw [if_neg hyz, if_pos hzy] at hbc
                exact absurd hbc (by simp)
              · rw [if_neg hyz, if_neg hzy] at hbc ⊢
                rw [if_neg hxy, if_neg hyx] at hab
                exact ih ys zs hab hbc

theorem rstrLtB_ne (a b : RStr) (h : rstrLtB a b = true) : a ≠ b := by
  intro hq
  subst hq
  rw [rstrLtB_irrefl] at h
  exact Bool.false_ne_true h

/-- `BTreeMap::insert` on a sorted association list (later inserts replace). -/
def btreeInsert (m : List (RStr × List Nat)) (k : RStr) (v : List Nat) :
    List (RStr × List Nat) :=
  match m with
  | [] => [(k, v)]
  | (k0, v0) :: rest =>
    if rstrLtB k k0 then (k, v) :: (k0, v0) :: rest
    else if rstrLtB k0 k then (k0, v0) :: btreeInsert rest k v
    else (k0, v) :: rest

/-- `index_map.entry(tag).or_default().extend(v)` on the sorted map. -/
def btreeExtend (m : List (RStr × List Nat)) (k : RStr) (v : List Nat) :
    List (RStr × List Nat) :=
  match m with
  | [] => [(k, v)]
  | (k0, v0) :: rest =>
    if rstrLtB k k0 then (k, v) :: (k0, v0) :: rest
    else if rstrLtB k0 k then (k0, v0) :: btreeExtend rest k v
    else (k0, v0 ++ v) :: rest

/-- Association-list lookup (first match). -/
def alookup (m : List (RStr × List Nat)) (t : RStr) : Option (List Nat) :=
  match m with
  | [] => none
  | (k, v) :: rest => if k = t then some v else alookup rest t

/-! ## `BlockData::merge` and the in-memory tier (block.rs) -/

/-- Result of Rust code that can panic: either a value or a process abort. -/
inductive RRes (α : Type) where
  | ok : α → RRes α
  | panicked : String → RRes α
  deriving Repr, DecidableEq

/-- Collecting `self.tags.zip(self.index.map(unwrap_index))` into a
`BTreeMap`, then `.unwrap()`: `none` models the panic on an unloaded slot. -/
def collectMap : List (RStr × Option (List Nat)) → List (RStr × List Nat) →
    Option (List (RStr × List Nat))
  | [], acc => some acc
  | (_, none) :: _, _ => none
  | (t, some l) :: rest, acc => collectMap rest (btreeInsert acc t l)

/-- The `for_each` over `other`'s `(index, tag)` pairs: shift every ordinal
by `shift` and extend the entry for the tag; `none` models the panic on an
unloaded slot of `other`. -/
def extendAll (m : List (RStr × List Nat)) :
    List (RStr × Option (List Nat)) → Nat → Option (List (RStr × List Nat))
  | [], _ => some m
  | (_, none) :: _, _ => none
  | (t, some l) :: rest, shift =>
    extendAll (btreeExtend m t (l.map (· + shift))) rest shift

/-- The body of `BlockData::merge` after the emptiness and ordering checks,
for `a` chronologically before `b`. -/
def mergeCore (a b : BlockData) : RRes BlockData :=
  match collectMap (a.tags.zip a.index) [] with
  | none => .panicked "all indexes must be loaded to merge blocks"
  | some m =>
    match extendAll m (b.tags.zip b.index) a.keys.length with
    | none => .panicked "all indexes must be loaded to merge blocks"
    | some m2 =>
      .ok ⟨m2.map Prod.fst, a.keys ++ b.keys, a.timestamps ++ b.timestamps,
        m2.map (fun p => some p.2)⟩

/-- Measure for the single possible operand swap in `merge`. -/
def swapMeasure (a b : BlockData) : Nat :=
  match a.timestamps.getLast?, b.timestamps.head? with
  | some alast, some bfirst => if bfirst < alast then 1 else 0
  | _, _ => 0

/-- `BlockData::merge`: empty operands short-circuit; the `debug_assert`s on
timestamp sortedness and all `unwrap`s are modelled as panics; if the left
operand ends after the right one begins, either the blocks intersect (panic)
or the operands are swapped. -/
def BlockData.merge (a b : BlockData) : RRes BlockData :=
  if a.keys = [] then .ok b
  else if b.keys = [] then .ok a
  else if a.timestamps.max? ≠ a.timestamps.getLast? then .panicked "assertion failed"
  else if b.timestamps.min? ≠ b.timestamps.head? then .panicked "assertion failed"
  else
    match ha1 : a.timestamps.getLast?, hb1 : b.timestamps.head? with
    | none, _ => .panicked "called unwrap on None"
    | some _, none => .panicked "called unwrap on None"
    | some alast, some bfirst =>
      if hgt1 : bfirst < alast then
        match hb2 : b.timestamps.getLast?, ha2 : a.timestamps.head? with
        | none, _ => .panicked "called unwrap on None"
        | some _, none => .panicked "called unwrap on None"
        | some blast, some afirst =>
          if afirst < blast then .panicked "blocks intersect"
          else BlockData.merge b a
      else mergeCore a b
  termination_by swapMeasure a b
  decreasing_by
    rename_i hgt2
    simp only [swapMeasure, ha1, hb1, hb2, ha2]
    simp [hgt1, hgt2]

/-- A sealed, immutable in-memory block: block data plus the cumulative
`(document, tag)` pair count. -/
structure InMemoryBlock where
  data : BlockData
  size : Nat
  deriving Repr, DecidableEq

/-- `InMemoryBlock::merge`: merge the data, add the sizes. -/
def InMemoryBlock.merge (x y : InMemoryBlock) : RRes InMemoryBlock :=
  match BlockData.merge x.data y.data with
  | .ok d => .ok ⟨d, x.size + y.size⟩
  | .panicked m => .panicked m

/-! ## `ActiveBlock` (block.rs) -/

/-- The mutable in-memory write buffer.  `index` models the
`BTreeMap<String, Vec<Index>>` as a sorted association list. -/
structure ActiveBlock where
  index : List (RStr × List Nat)
  keys : List RStr
  timestamps : List Nat
  size : Nat
  deriving Repr, DecidableEq

instance : Inhabited ActiveBlock := ⟨⟨[], [], [], 0⟩⟩

/-- `ActiveBlock::push`.  The wall-clock reading at the start of the call is
the explicit `now` argument; the stored timestamp is
`max(now, last_timestamp)`. -/
def ActiveBlock.push (ab : ActiveBlock) (now : Nat) (key : RStr)
    (tags : List RStr) : ActiveBlock :=
  let size := ab.size + tags.length
  let id := ab.keys.length
  let keys := ab.keys ++ [key]
  let ts := max now (ab.timestamps.getLast?.getD 0)
  let timestamps := ab.timestamps ++ [ts]
  let index := tags.foldl (fun m tag => btreeExtend m tag [id]) ab.index
  ⟨index, keys, timestamps, size⟩

/-- `ActiveBlock::into_block`: snapshot the tag map as two parallel
sequences in tag order and move `keys`/`timestamps` out. -/
def ActiveBlock.into_block (ab : ActiveBlock) : InMemoryBlock :=
  ⟨⟨ab.index.map Prod.fst, ab.keys, ab.timestamps,
    ab.index.map (fun p => some p.2)⟩, ab.size⟩

/-! ## Lemmas about the `BTreeMap` model -/

/-- The strict tag order as a relation. -/
def RLt (s t : RStr) : Prop := rstrLtB s t = true

instance : DecidableRel RLt :=
  fun s t => inferInstanceAs (Decidable (rstrLtB s t = true))

/-- Sorted association list: keys strictly ascending. -/
def keysSorted (m : List (RStr × List Nat)) : Prop :=
  List.Pairwise (fun p q => RLt p.1 q.1) m

theorem alookup_eq_none (m : List (RStr × List Nat)) (t : RStr)
    (h : ∀ p ∈ m, p.1 ≠ t) : alookup m t = none := by
  induction m with
  | nil => rfl
  | cons p rest ih =>
    rw [show alookup (p :: rest) t = if p.1 = t then some p.2 else alookup rest t from rfl]
    rw [if_neg (h p (by simp))]
    exact ih fun q hq => h q (by simp [hq])

theorem alookup_isSome_iff (m : List (RStr × List Nat)) (t : RStr) :
    (alookup m t).isSome = true ↔ t ∈ m.map Prod.fst := by
  induction m with
  | nil => simp [alookup]
  | cons p rest ih =>
    rw [show alookup (p :: rest) t = if p.1 = t then some p.2 else alookup rest t from rfl]
    by_cases hp : p.1 = t
    · simp [hp]
    · rw [if_neg hp]
      simp only [List.map_cons, List.mem_cons]
      rw [ih]
      constructor
      · exact Or.inr
      · rintro (h | h)
        · exact absurd h.symm hp
        · exact h

/-- Inserting a key greater than every key of the map appends at the end. -/
theorem btreeInsert_append (m : List (RStr × List Nat)) (k : RStr) (v : List Nat)
    (h : ∀ p ∈ m, RLt p.1 k) : btreeInsert m k v = m ++ [(k, v)] := by
  induction m with
  | nil => rfl
  | cons p rest ih =>
    obtain ⟨k0, v0⟩ := p
    have hp : rstrLtB k0 k = true := h (k0, v0) (by simp)
    show (if rstrLtB k k0 then (k, v) :: (k0, v0) :: rest
      else if rstrLtB k0 k then (k0, v0) :: btreeInsert rest k v
      else (k0, v) :: rest) = (k0, v0) :: rest ++ [(k, v)]
    rw [if_neg (by rw [rstrLtB_asymm k0 k hp]; simp), if_pos hp]
    rw [ih fun q hq => h q (by simp [hq])]
    rfl

/-- Collecting strictly ascending `(tag, Some list)` pairs on top of an
accumulator whose keys all precede them lists them in order. -/
theorem collectMap_sorted (ps : List (RStr × Option (List Nat)))
    (acc : List (RStr × List Nat))
    (hsome : ∀ p ∈ ps, p.2 ≠ none)
    (hacc : ∀ p ∈ acc, ∀ q ∈ ps, RLt p.1 q.1)
    (hps : List.Pairwise (fun p q => RLt p.1 q.1) ps) :
    collectMap ps acc = some (acc ++ ps.map (fun p => (p.1, p.2.getD []))) := by
  induction ps generalizing acc with
  | nil => simp [collectMap]
  | cons p rest ih =>
    obtain ⟨t, o⟩ := p
    cases o with
    | none => exact absurd rfl (hsome (t, none) (by simp))
    | some l =>
      show collectMap rest (btreeInsert acc t l) = _
      rw [btreeInsert_append acc t l (fun q hq => hacc q hq (t, some l) (by simp))]
      have haccnew : ∀ q ∈ acc ++ [(t, l)], ∀ r ∈ rest, RLt q.1 r.1 := by
        intro q hq r hr
        simp only [List.mem_append, List.mem_singleton] at hq
        rcases hq with hq | hq
        · exact hacc q hq r (by simp [hr])
        · subst hq
          exact (List.pairwise_cons.mp hps).1 r hr
      rw [ih (acc ++ [(t, l)]) (fun q hq => hsome q (by simp [hq])) haccnew
        (List.pairwise_cons.mp hps).2]
      simp

/-- Every entry of `btreeExtend m k v` has a key of `m` or the key `k`. -/
theorem btreeExtend_mem (m : List (RStr × List Nat)) (k : RStr) (v : List Nat) :
    ∀ p ∈ btreeExtend m k v, p.1 = k ∨ ∃ q ∈ m, p.1 = q.1 := by
  induction m with
  | nil =>
    intro p hp
    simp only [btreeExtend, List.mem_singleton] at hp
    subst hp
    exact Or.inl rfl
  | cons q0 rest ih =>
    obtain ⟨k0, v0⟩ := q0
    intro p hp
    rw [show btreeExtend ((k0, v0) :: rest) k v =
      (if rstrLtB k k0 then (k, v) :: (k0, v0) :: rest
       else if rstrLtB k0 k then (k0, v0) :: btreeExtend rest k v
       else (k0, v0 ++ v) :: rest) from rfl] at hp
    by_cases h1 : rstrLtB k k0 = true
    · rw [if_pos h1] at hp
      simp only [List.mem_cons] at hp
      rcases hp with rfl | rfl | hp
      · exact Or.inl rfl
      · exact Or.inr ⟨(k0, v0), by simp⟩
      · exact Or.inr ⟨p, by simp [hp]⟩
    · rw [if_neg h1] at hp
      by_cases h2 : rstrLtB k0 k = true
      · rw [if_pos h2] at hp
        simp only [List.mem_cons] at hp
        rcases hp with rfl | hp
        · exact Or.inr ⟨(k0, v0), by simp⟩
        · rcases ih p hp with h | ⟨q, hq, hpq⟩
          · exact Or.inl h
          · exact Or.inr ⟨q, by simp [hq], hpq⟩
      · rw [if_neg h2] at hp
        simp only [List.mem_cons] at hp
        rcases hp with rfl | hp
        · exact Or.inr ⟨(k0, v0), by simp⟩
        · exact Or.inr ⟨p, by simp [hp]⟩

theorem btreeExtend_sorted (m : List (RStr × List Nat)) (k : RStr) (v : List Nat)
    (hm : keysSorted m) : keysSorted (btreeExtend m k v) := by
  induction m with
  | nil => simp [btreeExtend, keysSorted]
  | cons q0 rest ih =>
    obtain ⟨k0, v0⟩ := q0
    obtain ⟨hq0, hrest⟩ := List.pairwise_cons.mp hm
    show keysSorted (if rstrLtB k k0 then (k, v) :: (k0, v0) :: rest
      else if rstrLtB k0 k then (k0, v0) :: btreeExtend rest k v
      else (k0, v0 ++ v) :: rest)
    by_cases h1 : rstrLtB k k0 = true
    · rw [if_pos h1]
      refine List.pairwise_cons.mpr ⟨?_, List.pairwise_cons.mpr ⟨hq0, hrest⟩⟩
      intro p hp
      simp only [List.mem_cons] at hp
      rcases hp with rfl | hp
      · exact h1
      · exact rstrLtB_trans _ _ _ h1 (hq0 p hp)
    · rw [if_neg h1]
      by_cases h2 : rstrLtB k0 k = true
      · rw [if_pos h2]
        refine List.pairwise_cons.mpr ⟨?_, ih hrest⟩
        intro p hp
        rcases btreeExtend_mem rest k v p hp with h | ⟨q, hq, hpq⟩
        · rw [h]; exact h2
        · rw [hpq]; exact hq0 q hq
      · rw [if_neg h2]
        exact List.pairwise_cons.mpr ⟨hq0, hrest⟩

theorem btreeExtend_lookup (m : List (RStr × List Nat)) (k : RStr) (v : List Nat)
    (t : RStr) (hm : keysSorted m) :
    alookup (btreeExtend m k v) t =
      if t = k then some ((alookup m k).getD [] ++ v) else alookup m t := by
  induction m with
  | nil =>
    by_cases ht : t = k
    · subst ht
      simp [btreeExtend, alookup]
    · show (if k = t then some v else none) = if t = k then _ else (none : Option (List Nat))
      rw [if_neg (fun hq => ht hq.symm), if_neg ht]
  | cons q0 rest ih =>
    obtain ⟨k0, v0⟩ := q0
    obtain ⟨hq0, hrest⟩ := List.pairwise_cons.mp hm
    show alookup (if rstrLtB k k0 then (k, v) :: (k0, v0) :: rest
      else if rstrLtB k0 k then (k0, v0) :: btreeExtend rest k v
      else (k0, v0 ++ v) :: rest) t = _
    by_cases h1 : rstrLtB k k0 = true
    · rw [if_pos h1]
      have hknone : alookup ((k0, v0) :: rest) k = none := by
        refine alookup_eq_none _ _ fun p hp => ?_
        simp only [List.mem_cons] at hp
        rcases hp with rfl | hp
        · exact fun hq => rstrLtB_ne k k0 h1 hq.symm
        · exact fun hq => rstrLtB_ne k p.1 (rstrLtB_trans _ _ _ h1 (hq0 p hp)) hq.symm
      by_cases ht : t = k
      · subst ht
        rw [if_pos rfl, hknone]
        show (if t = t then some v else alookup ((k0, v0) :: rest) t) = some (Option.getD none [] ++ v)
        rw [if_pos rfl]
        simp
      · rw [if_neg ht]
        show (if k = t then some v else alookup ((k0, v0) :: rest) t) =
          alookup ((k0, v0) :: rest) t
        rw [if_neg (fun hq => ht hq.symm)]
    · rw [if_neg h1]
      by_cases h2 : rstrLtB k0 k = true
      · rw [if_pos h2]
        have hq0k : k0 ≠ k := rstrLtB_ne k0 k h2
        show (if k0 = t then some v0 else alookup (btreeExtend rest k v) t) = _
        rw [ih hrest]
        by_cases hq0t : k0 = t
        · subst hq0t
          rw [if_pos rfl, if_neg hq0k]
          show some v0 = (if k0 = k0 then some v0 else alookup rest k0)
          rw [if_pos rfl]
        · rw [if_neg hq0t]
          by_cases ht : t = k
          · rw [if_pos ht, if_pos ht]
            show some ((alookup rest k).getD [] ++ v) =
              some ((if k0 = k then some v0 else alookup rest k).getD [] ++ v)
            rw [if_neg hq0k]
          · rw [if_neg ht, if_neg ht]
            show alookup rest t = (if k0 = t then some v0 else alookup rest t)
            rw [if_neg hq0t]
      · rw [if_neg h2]
        have hk0 : k0 = k := rstrLtB_total k0 k (by simpa using h2) (by simpa using h1)
        subst hk0
        show (if k0 = t then some (v0 ++ v) else alookup rest t) = _
      
        by_cases ht : t = k0
        · subst ht
          rw [if_pos rfl, if_pos rfl]
          show some (v0 ++ v) =
            some ((if t = t then some v0 else alookup rest t).getD [] ++ v)
          rw [if_pos rfl]
          rfl
        · rw [if_neg (fun hq => ht hq.symm), if_neg ht]
          show alookup rest t = (if k0 = t then some v0 else alookup rest t)
          rw [if_neg (fun hq => ht hq.symm)]

/-- Lookup in a list of `(tag, Option list)` pairs, stripping the option as
the merge loop does. -/
def palookup : List (RStr × Option (List Nat)) → RStr → Option (List Nat)
  | [], _ => none
  | (k, o) :: rest, t => if k = t then some (o.getD []) else palookup rest t

theorem palookup_eq_none (ps : List (RStr × Option (List Nat))) (t : RStr)
    (h : ∀ p ∈ ps, p.1 ≠ t) : palookup ps t = none := by
  induction ps with
  | nil => rfl
  | cons p rest ih =>
    obtain ⟨k, o⟩ := p
    show (if k = t then some (o.getD []) else palookup rest t) = none
    rw [if_neg (h (k, o) (by simp))]
    exact ih fun q hq => h q (by simp [hq])

theorem palookup_map (ps : List (RStr × Option (List Nat))) (t : RStr) :
    palookup ps t = alookup (ps.map (fun p => (p.1, p.2.getD []))) t := by
  induction ps with
  | nil => rfl
  | cons p rest ih =>
    obtain ⟨k, o⟩ := p
    show (if k = t then some (o.getD []) else palookup rest t) =
      (if k = t then some (o.getD []) else alookup (rest.map _) t)
    rw [ih]

/-- `extendAll` on pairwise-ascending `(tag, Some list)` pairs: succeeds,
keeps the map sorted, and the result looks up as "old entry extended by the
shifted new postings". -/
theorem extendAll_spec (ps : List (RStr × Option (List Nat)))
    (m : List (RStr × List Nat)) (shift : Nat)
    (hsome : ∀ p ∈ ps, p.2 ≠ none) (hm : keysSorted m)
    (hps : List.Pairwise (fun p q => RLt p.1 q.1) ps) :
    ∃ m2, extendAll m ps shift = some m2 ∧ keysSorted m2 ∧
      ∀ t, alookup m2 t =
        match palookup ps t with
        | some l => some ((alookup m t).getD [] ++ l.map (· + shift))
        | none => alookup m t := by
  induction ps generalizing m with
  | nil => exact ⟨m, rfl, hm, fun t => rfl⟩
  | cons p rest ih =>
    obtain ⟨t0, o⟩ := p
    cases o with
    | none => exact absurd rfl (hsome (t0, none) (by simp))
    | some l0 =>
      obtain ⟨hhd, htl⟩ := List.pairwise_cons.mp hps
      obtain ⟨m2, hEq, hSorted, hLook⟩ := ih (btreeExtend m t0 (l0.map (· + shift)))
        (fun q hq => hsome q (by simp [hq])) (btreeExtend_sorted m t0 _ hm) htl
      refine ⟨m2, hEq, hSorted, ?_⟩
      intro t
      rw [hLook t]
      by_cases ht : t = t0
      · subst ht
        have hrest_none : palookup rest t = none := by
          refine palookup_eq_none rest t fun q hq => ?_
          exact fun hqt => rstrLtB_ne t q.1 (hhd q hq) hqt.symm
        rw [hrest_none]
        show alookup (btreeExtend m t (l0.map (· + shift))) t = _
        rw [btreeExtend_lookup m t _ t hm, if_pos rfl]
        have hpal : palookup ((t, some l0) :: rest) t = some l0 := by
          show (if t = t then some ((some l0).getD [])
            else palookup rest t) = some l0
          rw [if_pos rfl]
          rfl
        rw [hpal]
      · have hcons : palookup ((t0, some l0) :: rest) t = palookup rest t := by
          show (if t0 = t then some ((some l0).getD []) else palookup rest t) = _
          rw [if_neg fun hq => ht hq.symm]
        have hext : alookup (btreeExtend m t0 (l0.map (· + shift))) t = alookup m t := by
          rw [btreeExtend_lookup m t0 _ t hm, if_neg ht]
        rw [hcons]
        cases hpr : palookup rest t with
        | none => rw [hext]
        | some l => rw [hext]

/-- Lookup of a tag's posting list in a block (tags zipped with slots, the
slot's option stripped). -/
def blockLookup (d : BlockData) (t : RStr) : Option (List Nat) :=
  alookup ((d.tags.zip d.index).map (fun p => (p.1, p.2.getD []))) t

theorem zip_map_self (m2 : List (RStr × List Nat)) :
    (((m2.map Prod.fst).zip (m2.map (fun p => some p.2))).map
      (fun p => (p.1, p.2.getD []))) = m2 := by
  induction m2 with
  | nil => rfl
  | cons p rest ih => simp [ih]

theorem pairwise_zip_left {α β : Type} (r : α → α → Prop) :
    ∀ (l1 : List α) (l2 : List β), List.Pairwise r l1 →
      List.Pairwise (fun p q => r p.1 q.1) (l1.zip l2)
  | _, [], _ => by simp
  | [], _ :: _, _ => by simp
  | x :: t1, y :: t2, h => by
    obtain ⟨hhd, htl⟩ := List.pairwise_cons.mp h
    refine List.pairwise_cons.mpr ⟨?_, pairwise_zip_left r t1 t2 htl⟩
    intro p hp
    exact hhd p.1 (List.of_mem_zip hp).1

/-- Full characterisation of `mergeCore` for well-formed operands. -/
theorem mergeCore_spec (a b : BlockData)
    (hai : a.tags.length = a.index.length) (hbi : b.tags.length = b.index.length)
    (has : List.Pairwise RLt a.tags) (hbs : List.Pairwise RLt b.tags)
    (haL : ∀ o ∈ a.index, o ≠ none) (hbL : ∀ o ∈ b.index, o ≠ none) :
    ∃ r, mergeCore a b = .ok r ∧
      r.keys = a.keys ++ b.keys ∧
      r.timestamps = a.timestamps ++ b.timestamps ∧
      List.Pairwise RLt r.tags ∧
      (∀ t, t ∈ r.tags ↔ t ∈ a.tags ∨ t ∈ b.tags) ∧
      (∀ t, blockLookup r t =
        match blockLookup a t, blockLookup b t with
        | some la, some lb => some (la ++ lb.map (· + a.keys.length))
        | some la, none => some la
        | none, some lb => some (lb.map (· + a.keys.length))
        | none, none => none) := by
  have hasome : ∀ p ∈ a.tags.zip a.index, p.2 ≠ none := fun p hp =>
    haL p.2 (List.of_mem_zip (by exact hp)).2
  have hbsome : ∀ p ∈ b.tags.zip b.index, p.2 ≠ none := fun p hp =>
    hbL p.2 (List.of_mem_zip (by exact hp)).2
  have hzipa : List.Pairwise (fun p q => RLt p.1 q.1) (a.tags.zip a.index) :=
    pairwise_zip_left RLt a.tags a.index has
  have hzipb : List.Pairwise (fun p q => RLt p.1 q.1) (b.tags.zip b.index) :=
    pairwise_zip_left RLt b.tags b.index hbs
  have hcoll := collectMap_sorted (a.tags.zip a.index) [] hasome (by simp) hzipa
  rw [List.nil_append] at hcoll
  have hmfst : ((a.tags.zip a.index).map
      (fun p => (p.1, p.2.getD []))).map Prod.fst = a.tags := by
    rw [List.map_map]
    have : (Prod.fst ∘ fun p : RStr × Option (List Nat) => (p.1, p.2.getD [])) =
        Prod.fst := rfl
    rw [this]
    exact List.map_fst_zip a.tags a.index (le_of_eq hai)
  have hmsorted : keysSorted ((a.tags.zip a.index).map
      (fun p => (p.1, p.2.getD []))) := by
    unfold keysSorted
    rw [List.pairwise_map]
    exact hzipa
  obtain ⟨m2, hEq, hSorted, hLook⟩ := extendAll_spec (b.tags.zip b.index)
    ((a.tags.zip a.index).map (fun p => (p.1, p.2.getD [])))
    a.keys.length hbsome hmsorted hzipb
  refine ⟨⟨m2.map Prod.fst, a.keys ++ b.keys, a.timestamps ++ b.timestamps,
    m2.map (fun p => some p.2)⟩, ?_, rfl, rfl, ?_, ?_, ?_⟩
  · show mergeCore a b = _
    unfold mergeCore
    rw [hcoll]
    dsimp only []
    rw [hEq]
  · show List.Pairwise RLt (m2.map Prod.fst)
    rw [List.pairwise_map]
    exact hSorted
  · intro t
    have hbfst : ((b.tags.zip b.index).map (fun p => (p.1, p.2.getD []))).map Prod.fst = b.tags := by
      rw [List.map_map]
      have hco : (Prod.fst ∘ fun p : RStr × Option (List Nat) => (p.1, p.2.getD [])) =
          Prod.fst := rfl
      rw [hco]
      exact List.map_fst_zip b.tags b.index (le_of_eq hbi)
    have h2 : (alookup ((a.tags.zip a.index).map (fun p => (p.1, p.2.getD []))) t).isSome = true ↔ t ∈ a.tags := by
      rw [alookup_isSome_iff, hmfst]
    have h3 : (alookup ((b.tags.zip b.index).map (fun p => (p.1, p.2.getD []))) t).isSome = true ↔ t ∈ b.tags := by
      rw [alookup_isSome_iff, hbfst]
    show t ∈ m2.map Prod.fst ↔ t ∈ a.tags ∨ t ∈ b.tags
    rw [← alookup_isSome_iff m2 t, hLook t, palookup_map, ← h2, ← h3]
    cases hA : alookup ((a.tags.zip a.index).map (fun p => (p.1, p.2.getD []))) t <;>
      cases hB : alookup ((b.tags.zip b.index).map (fun p => (p.1, p.2.getD []))) t <;> simp [hA, hB]
  · intro t
    show alookup (((m2.map Prod.fst).zip (m2.map (fun p => some p.2))).map
      (fun p => (p.1, p.2.getD []))) t = _
    rw [zip_map_self, hLook t, palookup_map]
    cases hA : alookup ((a.tags.zip a.index).map (fun p => (p.1, p.2.getD []))) t <;>
      cases hB : alookup ((b.tags.zip b.index).map (fun p => (p.1, p.2.getD []))) t <;>
      simp [blockLookup, hA, hB]

/-- `iter().max()` of a non-decreasing list is its last element. -/
theorem max?_eq_getLast?_of_sorted : ∀ (l : List Nat), List.Chain' (· ≤ ·) l →
    l.max? = l.getLast?
  | [], _ => rfl
  | [_], _ => rfl
  | x :: y :: ys, h => by
    obtain ⟨hxy, htl⟩ := List.chain'_cons.mp h
    have ih := max?_eq_getLast?_of_sorted (y :: ys) htl
    rw [List.getLast?_cons_cons, ← ih]
    simp only [List.max?_cons]
    cases hm : ys.max? with
    | none => simp [hm, sup_eq_right.mpr hxy]
    | some m =>
      have hx : x ≤ y ⊔ m := le_trans hxy le_sup_left
      simp [hm, sup_eq_right.mpr hx]

/-- `iter().min()` of a non-decreasing list is its first element. -/
theorem min?_eq_head?_of_sorted (l : List Nat) (h : List.Chain' (· ≤ ·) l) :
    l.min? = l.head? := by
  cases l with
  | nil => rfl
  | cons x xs =>
    rw [List.min?_cons]
    show some (xs.min?.elim x (min x)) = some x
    cases hm : xs.min? with
    | none => simp [hm]
    | some m =>
      have hmem := List.min?_mem (fun a b => min_choice a b) hm
      have hx : x ≤ m :=
        (List.pairwise_cons.mp (List.chain'_iff_pairwise.mp h)).1 m hmem
      simp [hm, inf_eq_left.mpr hx]

theorem sorted_head_le_last (l : List Nat) (h : List.Chain' (· ≤ ·) l)
    (x y : Nat) (hx : l.head? = some x) (hy : l.getLast? = some y) : x ≤ y := by
  cases l with
  | nil => simp at hx
  | cons a rest =>
    have hax : a = x := by simpa using hx
    subst hax
    have hyMem : y ∈ a :: rest := List.mem_of_mem_getLast? (by simp [hy])
    rcases List.mem_cons.mp hyMem with rfl | hmem
    · exact Nat.le_refl y
    · exact (List.pairwise_cons.mp (List.chain'_iff_pairwise.mp h)).1 y hmem

/-- When the operands are already in chronological order (`A.last ≤
B.first`), `merge` performs no swap and runs the core merge. -/
theorem merge_eq_mergeCore (a b : BlockData)
    (hane : a.keys ≠ []) (hbne : b.keys ≠ [])
    (hamax : a.timestamps.max? = a.timestamps.getLast?)
    (hbmin : b.timestamps.min? = b.timestamps.head?)
    (alast bfirst : Nat)
    (hal : a.timestamps.getLast? = some alast)
    (hbf : b.timestamps.head? = some bfirst)
    (hord : alast ≤ bfirst) :
    BlockData.merge a b = mergeCore a b := by
  rw [BlockData.merge]
  rw [if_neg hane, if_neg hbne, if_neg (by rw [hamax]; simp),
    if_neg (by rw [hbmin]; simp)]
  rw [hal, hbf]
  dsimp only []
  rw [dif_neg (by omega : ¬ bfirst < alast)]

/-- When the right operand ends no later than the left one begins, `merge`
swaps its operands. -/
theorem merge_swap (a b : BlockData)
    (hane : a.keys ≠ []) (hbne : b.keys ≠ [])
    (hamax : a.timestamps.max? = a.timestamps.getLast?)
    (hbmin : b.timestamps.min? = b.timestamps.head?)
    (alast bfirst blast afirst : Nat)
    (hal : a.timestamps.getLast? = some alast)
    (hbf : b.timestamps.head? = some bfirst)
    (hbl : b.timestamps.getLast? = some blast)
    (haf : a.timestamps.head? = some afirst)
    (hgt : bfirst < alast) (hle : ¬ afirst < blast) :
    BlockData.merge a b = BlockData.merge b a := by
  rw [BlockData.merge]
  rw [if_neg hane, if_neg hbne, if_neg (by rw [hamax]; simp),
    if_neg (by rw [hbmin]; simp)]
  rw [hal, hbf]
  dsimp only []
  rw [dif_pos hgt]
  rw [hbl, haf]
  dsimp only []
  rw [if_neg hle]

/-- When the blocks' time ranges properly overlap, `merge` panics. -/
theorem merge_panic (a b : BlockData)
    (hane : a.keys ≠ []) (hbne : b.keys ≠ [])
    (hamax : a.timestamps.max? = a.timestamps.getLast?)
    (hbmin : b.timestamps.min? = b.timestamps.head?)
    (alast bfirst blast afirst : Nat)
    (hal : a.timestamps.getLast? = some alast)
    (hbf : b.timestamps.head? = some bfirst)
    (hbl : b.timestamps.getLast? = some blast)
    (haf : a.timestamps.head? = some afirst)
    (hgt : bfirst < alast) (hgt2 : afirst < blast) :
    BlockData.merge a b = .panicked "blocks intersect" := by
  rw [BlockData.merge]
  rw [if_neg hane, if_neg hbne, if_neg (by rw [hamax]; simp),
    if_neg (by rw [hbmin]; simp)]
  rw [hal, hbf]
  dsimp only []
  rw [dif_pos hgt]
  rw [hbl, haf]
  dsimp only []
  rw [if_pos hgt2]

theorem alookup_mem (m : List (RStr × List Nat)) (t : RStr) (v : List Nat)
    (h : alookup m t = some v) : (t, v) ∈ m := by
  induction m with
  | nil => simp [alookup] at h
  | cons p rest ih =>
    obtain ⟨k, v0⟩ := p
    rw [show alookup ((k, v0) :: rest) t =
      (if k = t then some v0 else alookup rest t) from rfl] at h
    by_cases hk : k = t
    · rw [if_pos hk] at h
      subst hk
      simp only [Option.some.injEq] at h
      subst h
      simp
    · rw [if_neg hk] at h
      exact List.mem_cons_of_mem _ (ih h)

/-- Concatenating a strictly increasing list bounded by `n` with a strictly
increasing list shifted by `n` stays strictly increasing. -/
theorem chain_lt_append_shift (la lb : List Nat) (n : Nat)
    (hla : List.Chain' (· < ·) la) (hbound : ∀ x ∈ la, x < n)
    (hlb : List.Chain' (· < ·) lb) :
    List.Chain' (· < ·) (la ++ lb.map (· + n)) := by
  rw [List.chain'_append]
  refine ⟨hla, ?_, ?_⟩
  · rw [List.chain'_map]
    exact hlb.imp fun x y hxy => by omega
  · intro x hx y hy
    have hxla : x ∈ la := List.mem_of_mem_getLast? hx
    rw [List.head?_map] at hy
    have hy2 : lb.head?.map (· + n) = some y := hy
    obtain ⟨y0, _, rfl⟩ := Option.map_eq_some'.mp hy2
    have := hbound x hxla
    omega

/-- C6: `merge` checks `A.last ≤ B.first`; with the operands reversed and
the right block wholly before the left it swaps them and produces the result
of the correctly ordered call; it panics exactly when the two time ranges
properly overlap. -/
theorem c6_merge_swap_and_overlap_panic (a b : BlockData)
    (hai : a.tags.length = a.index.length) (hbi : b.tags.length = b.index.length)
    (has : List.Pairwise RLt a.tags) (hbs : List.Pairwise RLt b.tags)
    (haL : ∀ o ∈ a.index, o ≠ none) (hbL : ∀ o ∈ b.index, o ≠ none)
    (hane : a.keys ≠ []) (hbne : b.keys ≠ [])
    (hasort : List.Chain' (· ≤ ·) a.timestamps)
    (hbsort : List.Chain' (· ≤ ·) b.timestamps)
    (alast afirst blast bfirst : Nat)
    (hal : a.timestamps.getLast? = some alast)
    (haf : a.timestamps.head? = some afirst)
    (hbl : b.timestamps.getLast? = some blast)
    (hbf : b.timestamps.head? = some bfirst) :
    (alast ≤ bfirst → BlockData.merge a b = mergeCore a b) ∧
    (blast < afirst →
      BlockData.merge a b = mergeCore b a ∧ BlockData.merge b a = mergeCore b a) ∧
    ((∃ msg, BlockData.merge a b = .panicked msg) ↔
      bfirst < alast ∧ afirst < blast) := by
  have hamax := max?_eq_getLast?_of_sorted a.timestamps hasort
  have hbmin := min?_eq_head?_of_sorted b.timestamps hbsort
  have hbmax := max?_eq_getLast?_of_sorted b.timestamps hbsort
  have hamin := min?_eq_head?_of_sorted a.timestamps hasort
  have haord : afirst ≤ alast := sorted_head_le_last _ hasort _ _ haf hal
  have hbord : bfirst ≤ blast := sorted_head_le_last _ hbsort _ _ hbf hbl
  have hcoreAB := mergeCore_spec a b hai hbi has hbs haL hbL
  have hcoreBA := mergeCore_spec b a hbi hai hbs has hbL haL
  refine ⟨?_, ?_, ?_, ?_⟩
  · intro hord
    exact merge_eq_mergeCore a b hane hbne hamax hbmin alast bfirst hal hbf hord
  · intro hswap
    have h1 : BlockData.merge a b = BlockData.merge b a :=
      merge_swap a b hane hbne hamax hbmin alast bfirst blast afirst hal hbf hbl haf
        (by omega) (by omega)
    have h2 : BlockData.merge b a = mergeCore b a :=
      merge_eq_mergeCore b a hbne hane hbmax hamin blast afirst hbl haf (by omega)
    exact ⟨h1.trans h2, h2⟩
  · rintro ⟨msg, hmsg⟩
    by_cases h1 : bfirst < alast
    · by_cases h2 : afirst < blast
      · exact ⟨h1, h2⟩
      · have hswap := merge_swap a b hane hbne hamax hbmin alast bfirst blast afirst
          hal hbf hbl haf h1 h2
        have h3 := merge_eq_mergeCore b a hbne hane hbmax hamin blast afirst hbl haf
          (by omega)
        obtain ⟨r, hr, _⟩ := hcoreBA
        rw [hswap, h3, hr] at hmsg
        exact absurd hmsg (by simp)
    · have h3 := merge_eq_mergeCore a b hane hbne hamax hbmin alast bfirst hal hbf
        (by omega)
      obtain ⟨r, hr, _⟩ := hcoreAB
      rw [h3, hr] at hmsg
      exact absurd hmsg (by simp)
  · rintro ⟨h1, h2⟩
    exact ⟨_, merge_panic a b hane hbne hamax hbmin alast bfirst blast afirst
      hal hbf hbl haf h1 h2⟩

/-- Witness for C6 on two concrete singleton blocks `(ts 5)` and `(ts 7)`. -/
theorem c6_merge_swap_and_overlap_panic_witness :
    (5 ≤ 7 → BlockData.merge ⟨[[97]], [[107]], [5], [some [0]]⟩
      ⟨[[98]], [[108]], [7], [some [0]]⟩ =
      mergeCore ⟨[[97]], [[107]], [5], [some [0]]⟩ ⟨[[98]], [[108]], [7], [some [0]]⟩) ∧
    (7 < 5 → BlockData.merge ⟨[[97]], [[107]], [5], [some [0]]⟩
        ⟨[[98]], [[108]], [7], [some [0]]⟩ =
        mergeCore ⟨[[98]], [[108]], [7], [some [0]]⟩ ⟨[[97]], [[107]], [5], [some [0]]⟩ ∧
      BlockData.merge ⟨[[98]], [[108]], [7], [some [0]]⟩
        ⟨[[97]], [[107]], [5], [some [0]]⟩ =
        mergeCore ⟨[[98]], [[108]], [7], [some [0]]⟩ ⟨[[97]], [[107]], [5], [some [0]]⟩) ∧
    ((∃ msg, BlockData.merge ⟨[[97]], [[107]], [5], [some [0]]⟩
      ⟨[[98]], [[108]], [7], [some [0]]⟩ = .panicked msg) ↔ 7 < 5 ∧ 5 < 7) :=
  c6_merge_swap_and_overlap_panic
    ⟨[[97]], [[107]], [5], [some [0]]⟩ ⟨[[98]], [[108]], [7], [some [0]]⟩
    (by decide) (by decide) (by decide) (by decide) (by decide) (by decide)
    (by decide) (by decide) (by simp) (by simp)
    5 5 7 7 (by decide) (by decide) (by decide) (by decide)

/-- The byte sequence of `"tag<c>"` for a single trailing byte `c`. -/
def tagEx (c : Nat) : RStr := [116, 97, 103, c]

/-- The byte sequence of `"key<c>"` for a single trailing byte `c`. -/
def keyEx (c : Nat) : RStr := [107, 101, 121, c]

/-- The first (earlier) block of the spec's merge example, built through
`ActiveBlock::push` at wall-clock 1. -/
def mergeExampleA : InMemoryBlock :=
  ((((default : ActiveBlock).push 1 (keyEx 48) [tagEx 48, tagEx 49]).push 1
    (keyEx 49) [tagEx 49, tagEx 51]).push 1 (keyEx 50) [tagEx 48]).into_block

/-- The second (later) block of the spec's merge example, built through
`ActiveBlock::push` at wall-clock 2. -/
def mergeExampleB : InMemoryBlock :=
  (((((default : ActiveBlock).push 2 (keyEx 51) [tagEx 52, tagEx 48, tagEx 50]).push 2
    (keyEx 52) [tagEx 50]).push 2 (keyEx 53) [tagEx 48, tagEx 49]).push 2
    (keyEx 54) [tagEx 53]).into_block

/-- The merge result the spec's example expects. -/
def mergeExpected : InMemoryBlock :=
  ⟨⟨[tagEx 48, tagEx 49, tagEx 50, tagEx 51, tagEx 52, tagEx 53],
    [keyEx 48, keyEx 49, keyEx 50, keyEx 51, keyEx 52, keyEx 53, keyEx 54],
    [1, 1, 1, 2, 2, 2, 2],
    [some [0, 2, 3, 5], some [0, 1, 5], some [3, 4], some [1], some [3],
      some [6]]⟩, 12⟩

/-- C3: for an earlier block `a` and a later block `b`, `merge` concatenates
keys and timestamps as `a` then `b`, unions the tag sets (sorted), shifts
`b`'s ordinals by `|a.keys|` (tags in both get `a`'s postings followed by
`b`'s shifted postings, strictly increasing), and on the spec's concrete
3-document and 4-document inputs produces exactly the expected block. -/
theorem c3_merge_concat_union_shift (a b : BlockData)
    (hai : a.tags.length = a.index.length) (hbi : b.tags.length = b.index.length)
    (has : List.Pairwise RLt a.tags) (hbs : List.Pairwise RLt b.tags)
    (haL : ∀ o ∈ a.index, o ≠ none) (hbL : ∀ o ∈ b.index, o ≠ none)
    (hane : a.keys ≠ []) (hbne : b.keys ≠ [])
    (hasort : List.Chain' (· ≤ ·) a.timestamps)
    (hbsort : List.Chain' (· ≤ ·) b.timestamps)
    (alast bfirst : Nat)
    (hal : a.timestamps.getLast? = some alast)
    (hbf : b.timestamps.head? = some bfirst)
    (hord : alast ≤ bfirst)
    (haOrd : ∀ o ∈ a.index, List.Chain' (· < ·) (o.getD []) ∧
      ∀ x ∈ o.getD [], x < a.keys.length)
    (hbOrd : ∀ o ∈ b.index, List.Chain' (· < ·) (o.getD [])) :
    (∃ r, BlockData.merge a b = .ok r ∧
      r.keys = a.keys ++ b.keys ∧
      r.timestamps = a.timestamps ++ b.timestamps ∧
      List.Pairwise RLt r.tags ∧
      (∀ t, t ∈ r.tags ↔ t ∈ a.tags ∨ t ∈ b.tags) ∧
      (∀ t, blockLookup r t =
        match blockLookup a t, blockLookup b t with
        | some la, some lb => some (la ++ lb.map (· + a.keys.length))
        | some la, none => some la
        | none, some lb => some (lb.map (· + a.keys.length))
        | none, none => none) ∧
      (∀ t la lb, blockLookup a t = some la → blockLookup b t = some lb →
        blockLookup r t = some (la ++ lb.map (· + a.keys.length)) ∧
        List.Chain' (· < ·) (la ++ lb.map (· + a.keys.length)))) ∧
    InMemoryBlock.merge mergeExampleA mergeExampleB = .ok mergeExpected := by
  constructor
  · have hamax := max?_eq_getLast?_of_sorted a.timestamps hasort
    have hbmin := min?_eq_head?_of_sorted b.timestamps hbsort
    have hmc := merge_eq_mergeCore a b hane hbne hamax hbmin alast bfirst hal hbf hord
    obtain ⟨r, hr, hkeys, hts, hsorted, hunion, hlook⟩ :=
      mergeCore_spec a b hai hbi has hbs haL hbL
    refine ⟨r, hmc.trans hr, hkeys, hts, hsorted, hunion, hlook, ?_⟩
    intro t la lb hla hlb
    have hstep := hlook t
    rw [hla, hlb] at hstep
    refine ⟨hstep, ?_⟩
    have hmemA : (t, la) ∈ (a.tags.zip a.index).map (fun p => (p.1, p.2.getD [])) :=
      alookup_mem _ t la hla
    obtain ⟨pa, hpaMem, hpaEq⟩ := List.mem_map.mp hmemA
    have hlaOrd := haOrd pa.2 (List.of_mem_zip (by
      show (pa.1, pa.2) ∈ a.tags.zip a.index
      simpa using hpaMem)).2
    have hlaEq : pa.2.getD [] = la := congrArg Prod.snd hpaEq
    have hmemB : (t, lb) ∈ (b.tags.zip b.index).map (fun p => (p.1, p.2.getD [])) :=
      alookup_mem _ t lb hlb
    obtain ⟨pb, hpbMem, hpbEq⟩ := List.mem_map.mp hmemB
    have hlbOrd := hbOrd pb.2 (List.of_mem_zip (by
      show (pb.1, pb.2) ∈ b.tags.zip b.index
      simpa using hpbMem)).2
    have hlbEq : pb.2.getD [] = lb := congrArg Prod.snd hpbEq
    rw [hlaEq] at hlaOrd
    rw [hlbEq] at hlbOrd
    exact chain_lt_append_shift la lb a.keys.length hlaOrd.1 hlaOrd.2 hlbOrd
  · have h1 : BlockData.merge mergeExampleA.data mergeExampleB.data =
        mergeCore mergeExampleA.data mergeExampleB.data :=
      merge_eq_mergeCore mergeExampleA.data mergeExampleB.data
        (by decide) (by decide) (by decide) (by decide) 1 2
        (by decide) (by decide) (by decide)
    show (match BlockData.merge mergeExampleA.data mergeExampleB.data with
      | .ok d => RRes.ok (⟨d, mergeExampleA.size + mergeExampleB.size⟩ : InMemoryBlock)
      | .panicked m => .panicked m) = .ok mergeExpected
    rw [h1]
    decide

/-- Witness for C3: the hypotheses of the general part hold at the spec's
concrete example blocks. -/
theorem c3_merge_concat_union_shift_witness :
    ∃ r, BlockData.merge mergeExampleA.data mergeExampleB.data = .ok r ∧
      r.keys = mergeExampleA.data.keys ++ mergeExampleB.data.keys := by
  have haOrd : ∀ o ∈ mergeExampleA.data.index,
      List.Chain' (· < ·) (o.getD []) ∧
      ∀ x ∈ o.getD [], x < mergeExampleA.data.keys.length := by
    intro o ho
    have h1 : ∀ o ∈ mergeExampleA.data.index, chainLtB (o.getD []) = true ∧
        (o.getD []).all (fun x => decide (x < mergeExampleA.data.keys.length)) =
          true := by decide
    obtain ⟨hc, hb⟩ := h1 o ho
    refine ⟨(chainLtB_iff _).mp hc, fun x hx => ?_⟩
    simpa using List.all_eq_true.mp hb x hx
  have hbOrd : ∀ o ∈ mergeExampleB.data.index,
      List.Chain' (· < ·) (o.getD []) := by
    intro o ho
    have h1 : ∀ o ∈ mergeExampleB.data.index,
        chainLtB (o.getD []) = true := by decide
    exact (chainLtB_iff _).mp (h1 o ho)
  obtain ⟨⟨r, hr, hkeys, _⟩, _⟩ :=
    c3_merge_concat_union_shift mergeExampleA.data mergeExampleB.data
      (by decide) (by decide) (by decide) (by decide) (by decide) (by decide)
      (by decide) (by decide)
      ((chainLeB_iff _).mp (by decide)) ((chainLeB_iff _).mp (by decide))
      1 2 (by decide) (by decide) (by decide)
      haOrd hbOrd
  exact ⟨r, hr, hkeys⟩

/-- Run a sequence of `push` calls, each with its own wall-clock reading. -/
def pushAll (ab : ActiveBlock) (ps : List (Nat × RStr × List RStr)) : ActiveBlock :=
  ps.foldl (fun acc p => acc.push p.1 p.2.1 p.2.2) ab

theorem pushAll_append (ab : ActiveBlock) (ps : List (Nat × RStr × List RStr))
    (p : Nat × RStr × List RStr) :
    pushAll ab (ps ++ [p]) = (pushAll ab ps).push p.1 p.2.1 p.2.2 := by
  simp [pushAll, List.foldl_append]

theorem push_timestamps (ab : ActiveBlock) (now : Nat) (key : RStr)
    (tags : List RStr) :
    (ab.push now key tags).timestamps =
      ab.timestamps ++ [max now (ab.timestamps.getLast?.getD 0)] := rfl

/-- C7: after any sequence of `push` calls with arbitrary wall-clock
readings, the active block's timestamps are non-decreasing, and each stored
timestamp is at least the wall-clock value read at the start of its push. -/
theorem c7_push_timestamps_monotone (ps : List (Nat × RStr × List RStr)) :
    List.Chain' (· ≤ ·) (pushAll default ps).timestamps ∧
    (pushAll default ps).timestamps.length = ps.length ∧
    ∀ (i : Nat) (now : Nat) (ts : Nat),
      (ps.map (fun p => p.1))[i]? = some now →
      (pushAll default ps).timestamps[i]? = some ts →
      now ≤ ts := by
  induction ps using List.reverseRecOn with
  | nil => exact ⟨List.chain'_nil, rfl, by intro i now ts h; simp at h⟩
  | append_singleton ps p ih =>
    obtain ⟨hchain, hlen, hbound⟩ := ih
    rw [pushAll_append, push_timestamps]
    refine ⟨?_, ?_, ?_⟩
    · rw [List.chain'_append]
      refine ⟨hchain, List.chain'_singleton _, ?_⟩
      intro x hx y hy
      have hxlast : (pushAll default ps).timestamps.getLast?.getD 0 = x := by
        rw [show (pushAll default ps).timestamps.getLast? = some x from hx]
        rfl
      have hy1 : max p.1 ((pushAll default ps).timestamps.getLast?.getD 0) = y := by
        simpa using hy
      have hy2 : y = max p.1 ((pushAll default ps).timestamps.getLast?.getD 0) :=
        hy1.symm
      rw [hy2, hxlast]
      exact le_max_right _ _
    · simp [hlen]
    · intro i now ts hnow hts
      rw [List.map_append] at hnow
      by_cases hi : i < ps.length
      · rw [List.getElem?_append_left (by simpa using hi)] at hnow
        rw [List.getElem?_append_left (by rw [hlen]; exact hi)] at hts
        exact hbound i now ts hnow hts
      · by_cases hieq : i = ps.length
        · subst hieq
          have h1 : p.1 = now := by
            rw [List.getElem?_append_right (by simp)] at hnow
            simp only [List.length_map, Nat.sub_self, List.getElem?_cons_zero,
              Option.some.injEq, List.map_cons, List.map_nil] at hnow
            exact hnow
          have h2 : max p.1 ((pushAll default ps).timestamps.getLast?.getD 0) = ts := by
            rw [List.getElem?_append_right (by rw [hlen])] at hts
            rw [hlen, Nat.sub_self] at hts
            simpa using hts
          rw [← h1, ← h2]
          exact le_max_left _ _
        · exfalso
          rw [List.getElem?_eq_none (by simp; omega)] at hnow
          exact Option.noConfusion hnow

/-- Witness for C7 (no hypotheses; kept as a concrete instantiation of the
theorem at a two-push trace with a regressing wall clock). -/
theorem c7_push_timestamps_monotone_witness :
    List.Chain' (· ≤ ·) (pushAll default [(5, [107], [[116]]), (3, [108], [])]).timestamps ∧
    (pushAll default [(5, [107], [[116]]), (3, [108], [])]).timestamps.length = 2 ∧
    ∀ (i : Nat) (now : Nat) (ts : Nat),
      ([(5, [107], [[116]]), (3, [108], [])].map
        (fun p : Nat × RStr × List RStr => p.1))[i]? = some now →
      (pushAll default [(5, [107], [[116]]), (3, [108], [])]).timestamps[i]? = some ts →
      now ≤ ts :=
  c7_push_timestamps_monotone [(5, [107], [[116]]), (3, [108], [])]

/-- Witness for C2 at a concrete one-tag, one-key block written at offset 0
of an empty stream. -/
theorem c2_block_write_read_roundtrip_witness :
    ∃ (hd : BlockHeader) (sOut : MStream) (bf : BlockFile),
      writeImpl ⟨[[116]], [[107]], [5], [some [0, 2]]⟩ ⟨[], 0⟩ = .ok (hd, sOut) ∧
      read_header sOut 0 = .ok hd ∧
      (read_meta hd sOut).bind read_all = .ok bf ∧
      bf.data.tags = [[116]] ∧ bf.data.keys = [[107]] ∧
      bf.data.timestamps = [5] ∧ bf.data.index = [some [0, 2]] ∧
      hd.fromTs = 5 ∧ hd.toTs = 5 :=
  c2_block_write_read_roundtrip ⟨[[116]], [[107]], [5], [some [0, 2]]⟩ ⟨[], 0⟩
    (by decide) (by decide) (by decide)

/-! ## C5: header size bound at the tested slot counts -/

/-- The worst-case header of the `header_size` test: `n` index slots and every
`u64` field set to `u64::MAX`, so each field takes the maximal 9-byte
encoding. -/
def worstHeader (n : Nat) : BlockHeader :=
  ⟨2 ^ 64 - 1, 2 ^ 64 - 1, 2 ^ 64 - 1, 2 ^ 64 - 1,
    List.replicate n (2 ^ 64 - 1), 2 ^ 64 - 1, 2 ^ 64 - 1, 2 ^ 64 - 1⟩

theorem worstHeader_fits (n : Nat) :
    (encHeader (worstHeader n)).length ≤ header_size n := by
  have hl : (worstHeader n).index.length = n := by
    simp [worstHeader]
  have h := encHeader_length_le (worstHeader n)
  rwa [hl] at h

/-- C5: for every `n ∈ {0, 1, 16, 1024, 1024·1024}`, a `BlockHeader` with `n`
index slots and all offset fields set to `u64::MAX` encodes in MessagePack to
at most `header_size n = 1 + 4·9 + 5 + n·9 + 2·9 + 9` bytes, the size of the
reserved header region. -/
theorem c5_header_encoding_fits_reserved_region :
    (encHeader (worstHeader 0)).length ≤ header_size 0 ∧
    (encHeader (worstHeader 1)).length ≤ header_size 1 ∧
    (encHeader (worstHeader 16)).length ≤ header_size 16 ∧
    (encHeader (worstHeader 1024)).length ≤ header_size 1024 ∧
    (encHeader (worstHeader (1024 * 1024))).length ≤ header_size (1024 * 1024) :=
  ⟨worstHeader_fits 0, worstHeader_fits 1, worstHeader_fits 16,
    worstHeader_fits 1024, worstHeader_fits (1024 * 1024)⟩

/-! ## C1: the background save worker's loop guard (`Storage::save_worker`)

`save_worker` in storage.rs is

```
while self.stopped.load(Ordering::SeqCst) {
    self.bg_notify.notified().await;
    ... spawn_blocking(save_active).await ...
}
```

and `stopped: AtomicBool` is `Default::default()` (i.e. `false`) in
`Storage::new`; `send_stop` stores `true` and broadcasts the notifier.  We
model a run of the worker by the schedule of values its successive guard
reads of `stopped` return: each read of `true` lets the loop body run once
(await one notification, then one blocking `save_active`), and the first
read of `false` exits the loop. -/

/-- Initial value of the `stopped` flag (`Default::default()` for
`AtomicBool`). -/
def stopped_init : Bool := false

/-- Number of `save_active` runs `save_worker` performs on a given schedule
of guard reads, as the source's `while self.stopped.load(..)` loop: one run
per leading `true` read, exit at the first `false` read. -/
def save_worker_runs (reads : List Bool) : Nat :=
  (reads.takeWhile (fun b => b = true)).length

/-- The behaviour the spec describes, for comparison: the worker services one
notification per wake while the stop flag is still `false`, and exits at the
first read that observes `true` (set by `send_stop`). -/
def spec_worker_runs (reads : List Bool) : Nat :=
  (reads.takeWhile (fun b => b = false)).length

/-- C1: the loop guard of `save_worker` is inverted.  The flag starts
`false`, so on any schedule in which `send_stop` has not yet run (every
guard read returns `stopped_init = false`) the worker exits immediately
having serviced nothing — whereas the specified behaviour keeps servicing
each wake until the flag is set.  In particular on three wakes before stop
the code performs 0 `save_active` runs while the spec requires 3. -/
theorem c1_save_worker_guard_inverted :
    stopped_init = false ∧
    (∀ n : Nat, save_worker_runs (List.replicate n stopped_init) = 0) ∧
    spec_worker_runs (List.replicate 3 stopped_init) = 3 ∧
    save_worker_runs (List.replicate 3 stopped_init) ≠
      spec_worker_runs (List.replicate 3 stopped_init) := by
  refine ⟨rfl, ?_, by decide, by decide⟩
  intro n
  cases n with
  | zero => rfl
  | succ m => rfl

/-! ## C4: `Storage::compact` (storage.rs)

`compact` pops and merges the last two blocks of the compact list while
`prev.size() < last.size() * 4`, then pops the (single) last block for disk
flushing iff its size exceeds `config.max_block_size`.  The loop reads the
list from its tail, so we run it on the reversed list (head = newest
block). -/

/-- The merge loop of `Storage::compact`, on the reversed compact list:
while the list has at least two blocks and `prev.size < last.size * 4`, pop
both and push `prev.merge(last)`.  A merge panic aborts. -/
def compactLoopRev : List InMemoryBlock → RRes (List InMemoryBlock)
  | last :: prev :: rest =>
    if prev.size < last.size * 4 then
      match InMemoryBlock.merge prev last with
      | .ok nb => compactLoopRev (nb :: rest)
      | .panicked m => .panicked m
    else .ok (last :: prev :: rest)
  | l => .ok l
  termination_by l => l.length

/-- `Storage::compact`: run the merge loop, then pop the last block for
flushing iff `size > max_block_size`; returns the final compact list and
the at-most-one block handed to the disk writer. -/
def compact (max_block_size : Nat) (l : List InMemoryBlock) :
    RRes (List InMemoryBlock × Option InMemoryBlock) :=
  match compactLoopRev l.reverse with
  | .panicked m => .panicked m
  | .ok [] => .ok ([], none)
  | .ok (last :: rest) =>
    if max_block_size < last.size then .ok (rest.reverse, some last)
    else .ok ((last :: rest).reverse, none)

/-- One merge step of the compaction loop, stated on the compact list in its
stored (oldest-first) order: the last two blocks merge when
`prev.size < last.size * 4`. -/
def mergeStep (l l2 : List InMemoryBlock) : Prop :=
  ∃ init prev last nb, l = init ++ [prev, last] ∧
    prev.size < last.size * 4 ∧
    InMemoryBlock.merge prev last = .ok nb ∧
    l2 = init ++ [nb]

theorem compactLoopRev_spec (lRev fin : List InMemoryBlock)
    (h : compactLoopRev lRev = .ok fin) :
    Relation.ReflTransGen mergeStep lRev.reverse fin.reverse ∧
    ∀ prev last rest, fin = last :: prev :: rest →
      ¬ prev.size < last.size * 4 := by
  revert h
  induction lRev using compactLoopRev.induct generalizing fin with
  | case1 last prev rest hcond nb hmerge ih =>
    intro h
    rw [compactLoopRev, if_pos hcond, hmerge] at h
    obtain ⟨h1, h2⟩ := ih fin h
    refine ⟨Relation.ReflTransGen.head ?_ h1, h2⟩
    exact ⟨rest.reverse, prev, last, nb, by simp, hcond, hmerge, by simp⟩
  | case2 last prev rest hcond m hmerge =>
    intro h
    rw [compactLoopRev, if_pos hcond, hmerge] at h
    exact absurd h (by simp)
  | case3 last prev rest hcond =>
    intro h
    rw [compactLoopRev, if_neg hcond] at h
    obtain rfl : last :: prev :: rest = fin := by simpa using h
    refine ⟨Relation.ReflTransGen.refl, ?_⟩
    intro p lst r heq
    obtain ⟨rfl, rfl, rfl⟩ : lst = last ∧ p = prev ∧ r = rest := by
      simpa using heq.symm
    exact hcond
  | case4 l hshape =>
    intro h
    rw [compactLoopRev] at h
    · obtain rfl : l = fin := by simpa using h
      refine ⟨Relation.ReflTransGen.refl, ?_⟩
      intro p lst r heq
      exact absurd heq (fun hh => hshape lst p r hh)
    · exact hshape

theorem reverse_eq_append_pair {α : Type} (l init : List α) (p q : α)
    (h : l.reverse = init ++ [p, q]) : l = q :: p :: init.reverse := by
  have h2 := congrArg List.reverse h
  simpa using h2

/-- C4: one invocation of `Storage::compact`, when it returns, has (i)
transformed the compact list by a sequence of `mergeStep`s (each popping the
last two blocks with `prev.size < last.size * 4` and pushing their merge),
(ii) reached a fixpoint of that rule, and (iii) popped the last block for
flushing iff its size exceeds `max_block_size` — so at most one block is
returned per invocation and the list is otherwise left unchanged
(`fin ++ out.toList` is the list as the loop left it). -/
theorem c4_compact_reaches_merge_fixpoint_flushes_at_most_one
    (max_block_size : Nat) (l fin : List InMemoryBlock)
    (out : Option InMemoryBlock)
    (h : compact max_block_size l = .ok (fin, out)) :
    Relation.ReflTransGen mergeStep l (fin ++ out.toList) ∧
    (∀ init prev last, fin ++ out.toList = init ++ [prev, last] →
      ¬ prev.size < last.size * 4) ∧
    (∀ b, out = some b →
      (fin ++ out.toList).getLast? = some b ∧ max_block_size < b.size) ∧
    (out = none → ∀ b, (fin ++ out.toList).getLast? = some b →
      b.size ≤ max_block_size) := by
  unfold compact at h
  cases hrev : compactLoopRev l.reverse with
  | panicked m => rw [hrev] at h; exact absurd h (by simp)
  | ok rev =>
    rw [hrev] at h
    obtain ⟨hreach, hfix⟩ := compactLoopRev_spec l.reverse rev hrev
    rw [List.reverse_reverse] at hreach
    cases rev with
    | nil =>
      obtain ⟨rfl, rfl⟩ : ([] : List InMemoryBlock) = fin ∧
          (none : Option InMemoryBlock) = out := by simpa using h
      refine ⟨by simpa using hreach, ?_, ?_, ?_⟩
      · intro init prev last heq
        exact absurd heq (by simp)
      · intro b hb
        exact absurd hb (by simp)
      · intro _ b hb
        exact absurd hb (by simp)
    | cons last rest =>
      dsimp only [] at h
      by_cases hw : max_block_size < last.size
      · rw [if_pos hw] at h
        obtain ⟨rfl, rfl⟩ : rest.reverse = fin ∧ some last = out := by
          simpa using h
        have hlist : rest.reverse ++ (some last).toList = (last :: rest).reverse := by
          simp
        refine ⟨by rw [hlist]; simpa using hreach, ?_, ?_, ?_⟩
        · intro init prev lst heq
          rw [hlist] at heq
          exact hfix prev lst init.reverse (reverse_eq_append_pair _ _ _ _ heq)
        · intro b hb
          obtain rfl : last = b := by simpa using hb
          rw [hlist]
          refine ⟨?_, hw⟩
          rw [List.getLast?_reverse]
          rfl
        · intro hnone
          exact absurd hnone (by simp)
      · rw [if_neg hw] at h
        obtain ⟨rfl, rfl⟩ : (last :: rest).reverse = fin ∧
            (none : Option InMemoryBlock) = out := by simpa using h
        have hlist : (last :: rest).reverse ++ (none : Option InMemoryBlock).toList =
            (last :: rest).reverse := by simp
        refine ⟨by rw [hlist]; exact hreach, ?_, ?_, ?_⟩
        · intro init prev lst heq
          rw [hlist] at heq
          exact hfix prev lst init.reverse (reverse_eq_append_pair _ _ _ _ heq)
        · intro b hb
          exact absurd hb (by simp)
        · intro _ b hb
          rw [hlist, List.getLast?_reverse] at hb
          obtain rfl : last = b := by simpa using hb
          omega

/-- A single over-sized block, for exercising the flush branch of
`compact`. -/
def flushExample : InMemoryBlock := ⟨⟨[], [], [], []⟩, 5⟩

/-- Witness for C4 at a one-block list whose block exceeds
`max_block_size = 3`: the loop is already at a fixpoint and the block is
popped for flushing. -/
theorem c4_compact_reaches_merge_fixpoint_witness :
    compact 3 [flushExample] = .ok ([], some flushExample) ∧
    Relation.ReflTransGen mergeStep [flushExample]
      ([] ++ (some flushExample).toList) ∧
    ([] ++ (some flushExample).toList).getLast? = some flushExample ∧
    3 < flushExample.size := by
  have h1 : compactLoopRev [flushExample] = .ok [flushExample] := by
    rw [compactLoopRev]
    intro a b r hr
    exact absurd hr (by simp)
  have h0 : compact 3 [flushExample] = .ok ([], some flushExample) := by
    unfold compact
    rw [show ([flushExample] : List InMemoryBlock).reverse = [flushExample] from rfl,
      h1]
    rfl
  have hmain := c4_compact_reaches_merge_fixpoint_flushes_at_most_one 3
    [flushExample] [] (some flushExample) h0
  exact ⟨h0, hmain.1, (hmain.2.2.1 flushExample rfl).1,
    (hmain.2.2.1 flushExample rfl).2⟩

/-! ## C8: `SearchBlock` on an in-memory block (block.rs)

`InMemoryBlock`'s `SearchBlock` impl: `read_index` returns
`Err(anyhow!("shouldn't call read_index on in memory block"))` — a
recoverable error — while `try_get_index` does
`self.data.index[id].as_ref().unwrap()`, which panics on an out-of-bounds
id and on an unloaded (`None`) slot. -/

/-- Result of Rust code whose recoverable `Err` must be distinguished from a
panic: `ok` a value, `err` a returned `Result::Err`, `panicked` a process
abort. -/
inductive ROut (α : Type) where
  | ok : α → ROut α
  | err : String → ROut α
  | panicked : String → ROut α
  deriving Repr, DecidableEq

/-- `<InMemoryBlock as SearchBlock>::read_index`: unconditionally returns a
recoverable `Err`. -/
def InMemoryBlock.read_index (_b : InMemoryBlock) (_id : Nat) : ROut Unit :=
  .err "shouldn't call read_index on in memory block"

/-- `<InMemoryBlock as SearchBlock>::try_get_index`:
`Some(Arc::clone(self.data.index[id].as_ref().unwrap()))` — the indexing
panics out of bounds and the `unwrap` panics on an unloaded slot; otherwise
the posting list is returned. -/
def InMemoryBlock.try_get_index (b : InMemoryBlock) (id : Nat) :
    ROut (List Nat) :=
  match b.data.index[id]? with
  | none => .panicked "index out of bounds"
  | some none => .panicked "called unwrap on None"
  | some (some l) => .ok l

/-- C8 (as corrected): `read_index` on an in-memory block is a *recoverable*
error for every block and id — never a panic — while accessing a posting
list through `try_get_index` on an uninitialised (unloaded) slot, or out of
bounds, is a panic-level invariant violation. -/
theorem c8_read_index_recoverable_try_get_index_panics :
    (∀ (b : InMemoryBlock) (id : Nat),
      InMemoryBlock.read_index b id =
        .err "shouldn't call read_index on in memory block" ∧
      ∀ m, InMemoryBlock.read_index b id ≠ .panicked m) ∧
    (∀ (b : InMemoryBlock) (id : Nat),
      b.data.index[id]? = some none →
        InMemoryBlock.try_get_index b id = .panicked "called unwrap on None") ∧
    (∀ (b : InMemoryBlock) (id : Nat),
      b.data.index[id]? = none →
        InMemoryBlock.try_get_index b id = .panicked "index out of bounds") := by
  refine ⟨fun b id => ⟨rfl, fun m h => ROut.noConfusion h⟩, ?_, ?_⟩
  · intro b id h
    unfold InMemoryBlock.try_get_index
    rw [h]
  · intro b id h
    unfold InMemoryBlock.try_get_index
    rw [h]

/-- C8 counterexample to the claim as stated: on a concrete one-slot
in-memory block, `read_index` returns the recoverable `Err`, not a panic,
while `try_get_index` on a concrete block whose slot is unloaded does
panic. -/
theorem c8_read_index_not_a_panic_counterexample :
    InMemoryBlock.read_index ⟨⟨[[97]], [[107]], [5], [some [0]]⟩, 1⟩ 0 =
      .err "shouldn't call read_index on in memory block" ∧
    InMemoryBlock.try_get_index ⟨⟨[[97]], [[107]], [5], [none]⟩, 1⟩ 0 =
      .panicked "called unwrap on None" :=
  ⟨rfl, rfl⟩

/-! ## C9: `Storage::push_impl` and `Storage::acquire_active` (storage.rs)

`acquire_active` loops: take the active-block write lock, return it if
`active.size() < max_active_size`, else drop it and `yield_now().await`.
Other tasks may shrink the block between yields, so a run of the loop is
modelled by the schedule of active-block states observed at each attempt;
the loop returns at the first observation strictly below the bound and
yields on every other.  `push_impl` then applies the pusher to the acquired
block, notifies the background worker when the new size reaches the bound,
and returns `Ok(())` — its only return statement. -/

/-- `Storage::acquire_active` on a schedule of observed active-block states:
`some` the first state with `size < max_active_size` (lock acquired), `none`
when every observation was full (still yielding at the end of the
schedule). -/
def acquire_active (max_active_size : Nat) : List ActiveBlock → Option ActiveBlock
  | [] => none
  | a :: rest =>
    if a.size < max_active_size then some a
    else acquire_active max_active_size rest

/-- `Storage::push_impl`: acquire the active block, run the pusher on it,
set the notify flag iff the new size reached `max_active_size`, and return
`Ok(())`.  `none` models a call still yielding inside `acquire_active`. -/
def push_impl (max_active_size : Nat) (obs : List ActiveBlock)
    (pusher : ActiveBlock → ActiveBlock) :
    Option (ActiveBlock × Bool × Except String Unit) :=
  match acquire_active max_active_size obs with
  | none => none
  | some a =>
    let a2 := pusher a
    some (a2, decide (max_active_size ≤ a2.size), .ok ())

/-- `Storage::push`: `push_impl` with a single `ActiveBlock::push`. -/
def Storage.push (max_active_size : Nat) (obs : List ActiveBlock) (now : Nat)
    (key : RStr) (tags : List RStr) :
    Option (ActiveBlock × Bool × Except String Unit) :=
  push_impl max_active_size obs fun a => a.push now key tags

/-- `Storage::push_batch`: `push_impl` pushing every document. -/
def Storage.push_batch (max_active_size : Nat) (obs : List ActiveBlock)
    (docs : List (Nat × RStr × List RStr)) :
    Option (ActiveBlock × Bool × Except String Unit) :=
  push_impl max_active_size obs fun a => pushAll a docs

theorem acquire_active_some (max_active_size : Nat) (obs : List ActiveBlock)
    (a : ActiveBlock) (h : acquire_active max_active_size obs = some a) :
    a.size < max_active_size ∧ a ∈ obs := by
  induction obs with
  | nil => exact absurd h (by simp [acquire_active])
  | cons b rest ih =>
    rw [acquire_active] at h
    by_cases hb : b.size < max_active_size
    · rw [if_pos hb] at h
      obtain rfl : b = a := by simpa using h
      exact ⟨hb, by simp⟩
    · rw [if_neg hb] at h
      obtain ⟨h1, h2⟩ := ih h
      exact ⟨h1, by simp [h2]⟩

theorem acquire_active_none (max_active_size : Nat) (obs : List ActiveBlock)
    (h : acquire_active max_active_size obs = none) :
    ∀ a ∈ obs, max_active_size ≤ a.size := by
  induction obs with
  | nil => intro a ha; exact absurd ha (by simp)
  | cons b rest ih =>
    rw [acquire_active] at h
    by_cases hb : b.size < max_active_size
    · rw [if_pos hb] at h
      exact absurd h (by simp)
    · rw [if_neg hb] at h
      intro a ha
      rcases List.mem_cons.mp ha with rfl | hmem
      · omega
      · exact ih h a hmem

/-- C9: whenever `push_impl` (hence `Storage::push` / `Storage::push_batch`)
returns, it returns `Ok(())` — a full active block is never surfaced as an
error; the pusher ran on a block whose size was observed strictly below
`max_active_size`; and a call that has not returned yielded on observations
that were all full. -/
theorem c9_push_always_ok_full_block_yields
    (max_active_size : Nat) (obs : List ActiveBlock)
    (pusher : ActiveBlock → ActiveBlock) :
    (∀ a2 notify res,
      push_impl max_active_size obs pusher = some (a2, notify, res) →
      res = .ok () ∧
      ∃ a, acquire_active max_active_size obs = some a ∧
        a.size < max_active_size ∧ a ∈ obs ∧ a2 = pusher a ∧
        (notify = true ↔ max_active_size ≤ a2.size)) ∧
    (push_impl max_active_size obs pusher = none →
      ∀ a ∈ obs, max_active_size ≤ a.size) ∧
    (∀ now key tags, Storage.push max_active_size obs now key tags =
      push_impl max_active_size obs fun a => a.push now key tags) ∧
    (∀ docs, Storage.push_batch max_active_size obs docs =
      push_impl max_active_size obs fun a => pushAll a docs) := by
  refine ⟨?_, ?_, fun _ _ _ => rfl, fun _ => rfl⟩
  · intro a2 notify res h
    unfold push_impl at h
    cases hacq : acquire_active max_active_size obs with
    | none => rw [hacq] at h; exact absurd h (by simp)
    | some a =>
      rw [hacq] at h
      obtain ⟨h1, h2, h3⟩ : pusher a = a2 ∧
          decide (max_active_size ≤ (pusher a).size) = notify ∧
          (Except.ok () : Except String Unit) = res := by simpa using h
      obtain ⟨ha1, ha2⟩ := acquire_active_some max_active_size obs a hacq
      refine ⟨h3.symm, a, rfl, ha1, ha2, h1.symm, ?_⟩
      rw [← h2, ← h1]
      simp
  · intro h
    unfold push_impl at h
    cases hacq : acquire_active max_active_size obs with
    | none => exact acquire_active_none max_active_size obs hacq
    | some a => rw [hacq] at h; exact absurd h (by simp)

/-! ## C10: `StorageIter::next` (storage.rs)

`iter()` starts a `StorageIter` in the `Active` phase.  Its first `next`
clones the active block under the read lock, seals the clone with
`into_block`, switches to the `InMemory` phase over the compact list, and
returns `Some` of the sealed snapshot — unconditionally.  The in-memory and
file phases then walk their lists newest-first through
`StorageLockedIter` (`cur` starts at `len` and is decremented before each
yield). -/

/-- The storage's three block tiers, as the iterator sees them. -/
structure StorageModel where
  active_block : ActiveBlock
  compact_list : List InMemoryBlock
  block_files : List BlockFile

/-- An item the iterator yields (an `Arc<RwLock<dyn SearchBlock>>`). -/
inductive SearchBlockRef where
  | inMemory : InMemoryBlock → SearchBlockRef
  | file : BlockFile → SearchBlockRef
  deriving Repr, DecidableEq

/-- The iterator's `cur` state (`StorageIterType`): the phase plus, past the
active phase, the `StorageLockedIter` cursor. -/
inductive IterPhase where
  | active
  | inMemory (cur : Nat)
  | fileP (cur : Nat)
  deriving Repr, DecidableEq

/-- `StorageLockedIter::next`: if `cur > 0`, decrement and yield
`data[cur]`; else yield nothing. -/
def lockedNext {α : Type} (data : List α) (cur : Nat) : Option α × Nat :=
  match cur with
  | 0 => (none, 0)
  | c + 1 => (data[c]?, c)

/-- `StorageIter::next`: the active phase seals and yields a snapshot of the
active block and moves to the in-memory phase with `cur = compact_list.len()`;
the in-memory phase yields from the compact list and, when exhausted, falls
through to the file phase (the source's `self.next()` recursion, inlined);
the file phase yields from the block files. -/
def iterNext (s : StorageModel) : IterPhase → Option SearchBlockRef × IterPhase
  | .active =>
    (some (.inMemory s.active_block.into_block),
      .inMemory s.compact_list.length)
  | .inMemory cur =>
    match lockedNext s.compact_list cur with
    | (some b, c) => (some (.inMemory b), .inMemory c)
    | (none, _) =>
      match lockedNext s.block_files s.block_files.length with
      | (v, c) => (v.map .file, .fileP c)
  | .fileP cur =>
    match lockedNext s.block_files cur with
    | (v, c) => (v.map .file, .fileP c)

/-- C10: the first `next` of every storage iterator yields `Some` of the
sealed (`into_block`) snapshot of the active block taken at that moment,
whatever the three tiers hold; on a storage holding no documents at all the
snapshot is a block with empty tags, keys, timestamps and index, and the
iteration ends right after it. -/
theorem c10_iter_first_yields_sealed_active_snapshot (s : StorageModel) :
    iterNext s .active =
      (some (.inMemory s.active_block.into_block),
        .inMemory s.compact_list.length) ∧
    (s.active_block = default → s.compact_list = [] → s.block_files = [] →
      (iterNext s .active).1 = some (.inMemory ⟨⟨[], [], [], []⟩, 0⟩) ∧
      (iterNext s (iterNext s .active).2).1 = none) := by
  refine ⟨rfl, ?_⟩
  intro ha hc hb
  obtain ⟨a, c, b⟩ := s
  cases ha; cases hc; cases hb
  exact ⟨rfl, rfl⟩

end Tagged
